import Mathlib

/-!
# DENSEanalysis numerical kernels: embedding and verified properties

Shallow embedding of the four MEX kernels

* `DENSE_utilities/spline_toolbox/interpnearest.c`
* `DENSE_utilities/spline_toolbox/kmatrix2.c`
* `DENSE_utilities/unwrap_toolbox/private/quickfind_mex.c`
* `DENSE_utilities/unwrap_toolbox/private/quickmax_mex.c`

Every C file defines one `mexFunction`; each lives in a namespace named after its file.

Conventions of the embedding

* `double` is `Dbl`, a model of IEEE 754 binary64 (NaN, signed infinities, signed zeros,
  subnormals, round-to-nearest-even for `+`, `-`, `*`).
* A `double *` buffer is a function `Nat → Dbl` from the element offset to its content;
  the dimensions travel separately, as in the C code.
* `mwSize` / `mwIndex` are `Nat`: they are as wide as a pointer, so no offset into an
  allocated buffer wraps.  `unsigned int` (kmatrix2) is 32 bits wide and is reduced
  modulo `2^32` explicitly.
* Index results that the C code stores in a `double` (`Pidx`, `ind`, `idxout`) are kept as
  `Int`: the conversion of an element offset to `double` is exact below `2^53`, which is
  beyond the number of elements any buffer can have.
* The squared Euclidean distance of the specification is `interpnearest.sqEuclid`: exact
  integer arithmetic on the values of the coordinates.  The code's `dsq` is its rounded
  evaluation; the two agree where no operation rounds (`interpnearest.dsq_isExact`).
* `mexErrMsgIdAndTxt` never returns; a call that reaches it yields `Except.error` carrying
  the message identifier.
-/

set_option exponentiation.threshold 10000

/-! ## IEEE 754 binary64 -/

/-- A binary64 value.  `fin neg mag` is the finite number `(-1)^neg * mag * 2^(-1074)`:
every finite double is an integer multiple of the smallest subnormal. -/
inductive Dbl where
  | nan : Dbl
  | inf (neg : Bool) : Dbl
  | fin (neg : Bool) (mag : Nat) : Dbl
  deriving DecidableEq

namespace Dbl

/-- Positive zero, the value of the C literals `0` and `0.0`. -/
def zero : Dbl := fin false 0

/-- The value `1.0`. -/
def one : Dbl := fin false (2 ^ 1074)

/-- Negative infinity, `-mxGetInf()`. -/
def negInf : Dbl := inf true

/-- Signed multiple of `2^(-1074)` denoted by a sign bit and a magnitude. -/
def sval (neg : Bool) (mag : Nat) : Int :=
  if neg then -(mag : Int) else (mag : Int)

/-- The C predicate `isnan`. -/
def isNaN : Dbl → Bool
  | nan => true
  | _ => false

/-- The C comparison `a < b`: false as soon as one operand is NaN. -/
def lt : Dbl → Dbl → Bool
  | nan, _ => false
  | _, nan => false
  | inf sa, inf sb => sa && !sb
  | inf sa, fin _ _ => sa
  | fin _ _, inf sb => !sb
  | fin sa ma, fin sb mb => decide (sval sa ma < sval sb mb)

/-- The C comparison `a == b`: NaN differs from everything, `+0 == -0`. -/
def eq : Dbl → Dbl → Bool
  | inf sa, inf sb => sa == sb
  | fin sa ma, fin sb mb => decide (sval sa ma = sval sb mb)
  | _, _ => false

/-- The C comparison `a <= b`. -/
def le (a b : Dbl) : Bool := lt a b || eq a b

/-- The C comparison `a > b`. -/
def gt (a b : Dbl) : Bool := lt b a

/-- Binary search for the bit length: `acc` bits are already counted, the remaining value
`n` is below `2^(2^s)`. -/
def bitLenGo : Nat → Nat → Nat → Nat
  | 0, n, acc => if n = 0 then acc else acc + 1
  | s + 1, n, acc =>
    if 2 ^ (2 ^ s) ≤ n then bitLenGo s (n / 2 ^ (2 ^ s)) (acc + 2 ^ s) else bitLenGo s n acc

/-- Number of significant bits of `n`, for `n < 2^8192`; exact sums and products of finite
doubles stay below `2^4196`. -/
def bitLen (n : Nat) : Nat := bitLenGo 13 n 0

/-- Round the exact magnitude `M * 2^(-1074 - sh)` to the nearest binary64 magnitude, ties to
even, in units of `2^(-1074)`; `none` is overflow.  `drop` low bits of `M` are discarded: at
least `sh` (the result is a multiple of the smallest subnormal) and enough to keep 53
significant bits. -/
def roundMag (M sh : Nat) : Option Nat :=
  let drop := max sh (bitLen M - 53)
  let q := M / 2 ^ drop
  let r := M % 2 ^ drop
  let up := decide (2 ^ drop < 2 * r) || (decide (2 * r = 2 ^ drop) && decide (q % 2 = 1))
  let q1 := if up then q + 1 else q
  let n := q1 * 2 ^ (drop - sh)
  if n < 2 ^ 2098 then some n else none

/-- The double nearest to `(-1)^neg * M * 2^(-1074 - sh)`. -/
def ofExact (neg : Bool) (M sh : Nat) : Dbl :=
  match roundMag M sh with
  | some n => fin neg n
  | none => inf neg

/-- Unary minus. -/
def neg : Dbl → Dbl
  | nan => nan
  | inf s => inf (!s)
  | fin s m => fin (!s) m

/-- The C addition `a + b` in round-to-nearest-even. -/
def add : Dbl → Dbl → Dbl
  | nan, _ => nan
  | _, nan => nan
  | inf sa, inf sb => if sa = sb then inf sa else nan
  | inf sa, fin _ _ => inf sa
  | fin _ _, inf sb => inf sb
  | fin sa ma, fin sb mb =>
    let z := sval sa ma + sval sb mb
    if z = 0 then fin (sa && sb) 0 else ofExact (decide (z < 0)) z.natAbs 0

/-- The C subtraction `a - b`. -/
def sub (a b : Dbl) : Dbl := add a (neg b)

/-- The C multiplication `a * b` in round-to-nearest-even. -/
def mul : Dbl → Dbl → Dbl
  | nan, _ => nan
  | _, nan => nan
  | inf sa, inf sb => inf (xor sa sb)
  | inf sa, fin sb mb => if mb = 0 then nan else inf (xor sa sb)
  | fin sa ma, inf sb => if ma = 0 then nan else inf (xor sa sb)
  | fin sa ma, fin sb mb => ofExact (xor sa sb) (ma * mb) 1074

/-- The sign bit is clear or the value is NaN: such a value is never below zero. -/
def signClear : Dbl → Bool
  | nan => true
  | inf s => !s
  | fin s _ => !s

/-- The double nearest to the integer `z` (exact for `|z| < 2^53`). -/
def ofInt (z : Int) : Dbl :=
  ofExact (decide (z < 0)) (z.natAbs * 2 ^ 1074) 0

end Dbl

/-- Store `v` at offset `i` of a buffer. -/
def setAt {α : Type} (buf : Nat → α) (i : Nat) (v : α) : Nat → α :=
  fun j => if j = i then v else buf j

/-- What the kernels read of a MATLAB array: `mxIsDouble`, `mxGetNumberOfDimensions`,
`mxGetM`, `mxGetN` and the data behind `mxGetPr`, stored column by column. -/
structure MxArray where
  isDouble : Bool
  ndim : Nat
  m : Nat
  n : Nat
  pr : Nat → Dbl

/-- The value of `mxGetNumberOfElements`: `mxGetN` is the product of all dimensions but the
first. -/
def MxArray.numel (a : MxArray) : Nat := a.m * a.n

/-! ## interpnearest.c -/

namespace interpnearest

/-- The locals `mindsq`, `idx`, `tf` of `mexFunction`. -/
structure Locals where
  mindsq : Dbl
  idx : Nat
  tf : Bool

/-- The distance loop `dsq = 0; for (k=0; k<Nd; k++) { d = P[ip+Np*k] - C[ic+Nc*k];
dsq += d*d; }` after `k` iterations. -/
def dsqLoop (P C : Nat → Dbl) (Np Nc ip ic : Nat) : Nat → Dbl
  | 0 => Dbl.zero
  | k + 1 =>
    let dsq := dsqLoop P C Np Nc ip ic k
    let d := Dbl.sub (P (ip + Np * k)) (C (ic + Nc * k))
    Dbl.add dsq (Dbl.mul d d)

/-- The center loop `for (ic=...; ic<Nc; ic++)` with `rem = Nc - ic` iterations left,
including the `break` on an accepted zero distance. -/
def centerLoop (P C : Nat → Dbl) (Np Nc Nd ip : Nat) : Nat → Nat → Locals → Locals
  | 0, _, st => st
  | rem + 1, ic, st =>
    let dsq := dsqLoop P C Np Nc ip ic Nd
    if Dbl.lt dsq st.mindsq then
      let st1 : Locals := { mindsq := dsq, idx := ic, tf := true }
      if Dbl.eq dsq Dbl.zero then st1 else centerLoop P C Np Nc Nd ip rem (ic + 1) st1
    else centerLoop P C Np Nc Nd ip rem (ic + 1) st

/-- The value loop `for (k=0; k<Nv; k++) Pval[ip+Np*k] = Cval[idx+Nc*k];` after `k`
iterations. -/
def copyLoop (Cval : Nat → Dbl) (Np Nc ip idx : Nat) : Nat → (Nat → Dbl) → (Nat → Dbl)
  | 0, Pval => Pval
  | k + 1, Pval =>
    setAt (copyLoop Cval Np Nc ip idx k Pval) (ip + Np * k) (Cval (idx + Nc * k))

/-- The value loop `for (k=0; k<Nv; k++) Pval[ip+Np*k] = nan;` after `k` iterations. -/
def nanLoop (Np ip : Nat) : Nat → (Nat → Dbl) → (Nat → Dbl)
  | 0, Pval => Pval
  | k + 1, Pval => setAt (nanLoop Np ip k Pval) (ip + Np * k) Dbl.nan

/-- What the point loop carries from one query point to the next: the two output buffers
and the local `idx`, which is declared once for the whole function and never reset. -/
structure Bufs where
  Pval : Nat → Dbl
  Pidx : Nat → Int
  idx : Nat

/-- One iteration of the point loop `for (ip=0; ip<Np; ip++)`. -/
def pointBody (flagidx : Bool) (P C Cval : Nat → Dbl) (Np Nc Nd Nv : Nat) (csq : Dbl)
    (ip : Nat) (b : Bufs) : Bufs :=
  let st := centerLoop P C Np Nc Nd ip Nc 0 { mindsq := csq, idx := b.idx, tf := false }
  if st.tf then
    { Pval := copyLoop Cval Np Nc ip st.idx Nv b.Pval
      Pidx := if flagidx then setAt b.Pidx ip ((st.idx : Int) + 1) else b.Pidx
      idx := st.idx }
  else
    { Pval := nanLoop Np ip Nv b.Pval
      Pidx := if flagidx then setAt b.Pidx ip 0 else b.Pidx
      idx := st.idx }

/-- The point loop after `n` iterations, started on the freshly created (zero-filled) output
matrices; `idx0` is the indeterminate initial content of the local `idx`. -/
def pointLoop (flagidx : Bool) (P C Cval : Nat → Dbl) (Np Nc Nd Nv : Nat) (csq : Dbl)
    (idx0 : Nat) : Nat → Bufs
  | 0 => { Pval := fun _ => Dbl.zero, Pidx := fun _ => 0, idx := idx0 }
  | ip + 1 =>
    pointBody flagidx P C Cval Np Nc Nd Nv csq ip
      (pointLoop flagidx P C Cval Np Nc Nd Nv csq idx0 ip)

/-- The outputs `plhs[0]` (Np x Nv, column by column) and, when two outputs are requested,
`plhs[1]` (Np x 1). -/
structure Output where
  Pval : Nat → Dbl
  Pidx : Option (Nat → Int)

/-- The function `mexFunction` of interpnearest.c.  `prhs` is the argument list (`nrhs` is
its length), `nlhs` the number of requested outputs, `idx0` the indeterminate initial
content of the uninitialised local `idx`. -/
def mexFunction (idx0 : Nat) (nlhs : Nat) (prhs : List MxArray) : Except String Output :=
  match prhs with
  | [p0, p1, p2, p3] =>
    if nlhs ≠ 1 ∧ nlhs ≠ 2 then .error "interpnearest:invalidInput"
    else
      let flagidx := decide (nlhs = 2)
      if !p0.isDouble || decide (p0.ndim ≠ 2) then .error "interpnearest:invalidInput"
      else
        let P := p0.pr
        let Np := p0.m
        let Nd := p0.n
        if !p1.isDouble || decide (p1.ndim ≠ 2) || decide (p1.n ≠ Nd) then
          .error "interpnearest:invalidInput"
        else
          let C := p1.pr
          let Nc := p1.m
          if !p2.isDouble || decide (p2.ndim ≠ 2) || decide (p2.m ≠ Nc) then
            .error "interpnearest:invalidInput"
          else
            let Cval := p2.pr
            let Nv := p2.n
            if !p3.isDouble || decide (p3.numel ≠ 1) then .error "interpnearest:invalidInput"
            else
              let c := p3.pr 0
              let csq := Dbl.mul c c
              if Dbl.le c Dbl.zero then .error "interpnearest:invalidInput"
              else
                let b := pointLoop flagidx P C Cval Np Nc Nd Nv csq idx0 Np
                .ok { Pval := b.Pval, Pidx := if flagidx then some b.Pidx else none }
  | _ => .error "interpnearest:invalidInput"

/-- The squared distance the C code computes between query point `ip` and center `ic`. -/
def dsq (p0 p1 : MxArray) (ip ic : Nat) : Dbl :=
  dsqLoop p0.pr p1.pr p0.m p1.m ip ic p0.n

/-- The value `csq = c*c` the C code computes from the radius argument. -/
def csq (p3 : MxArray) : Dbl := Dbl.mul (p3.pr 0) (p3.pr 0)

/-- The state of the locals once the centers `0 .. n-1` of one query point are accounted
for, `d j` being the squared distance to center `j`: no such center is below `mindsq`;
without a match `mindsq` is still `csq`; with a match `mindsq` is the distance of center
`idx`, it is below `csq`, and every earlier center is strictly farther (or at NaN). -/
def Scanned (d : Nat → Dbl) (csq : Dbl) (n : Nat) (st : Locals) : Prop :=
  (∀ j, j < n → Dbl.lt (d j) st.mindsq = false) ∧
  (st.tf = false → st.mindsq = csq) ∧
  (st.tf = true → st.idx < n ∧ st.mindsq = d st.idx ∧ Dbl.lt st.mindsq csq = true ∧
    ∀ j, j < st.idx → Dbl.lt st.mindsq (d j) = true ∨ Dbl.isNaN (d j) = true)

/-- Row `ip` of the outputs is final: it was written from locals that account for all `Nc`
centers, either as the copy of the value row of center `idx` with index `idx+1`, or as a
NaN row with index 0. -/
def RowDone (flagidx : Bool) (P C Cval : Nat → Dbl) (Np Nc Nd Nv : Nat) (csq : Dbl)
    (ip : Nat) (b : Bufs) : Prop :=
  ∃ st : Locals, Scanned (fun j => dsqLoop P C Np Nc ip j Nd) csq Nc st ∧
    ((st.tf = true ∧ (∀ k, k < Nv → b.Pval (ip + Np * k) = Cval (st.idx + Nc * k)) ∧
        (flagidx = true → b.Pidx ip = (st.idx : Int) + 1)) ∨
     (st.tf = false ∧ (∀ k, k < Nv → b.Pval (ip + Np * k) = Dbl.nan) ∧
        (flagidx = true → b.Pidx ip = 0)))

/-- A one-element double matrix holding `x`. -/
def scalar (x : Dbl) : MxArray :=
  { isDouble := true, ndim := 2, m := 1, n := 1, pr := fun _ => x }

/-- A double matrix with `m` rows and `n` columns whose data, column by column, is `xs`. -/
def matrix (m n : Nat) (xs : List Dbl) : MxArray :=
  { isDouble := true, ndim := 2, m := m, n := n, pr := fun t => xs.getD t Dbl.zero }

/-- The outputs of a successful call, read off the point loop. -/
def result (idx0 nlhs : Nat) (p0 p1 p2 p3 : MxArray) : Output :=
  let b := pointLoop (decide (nlhs = 2)) p0.pr p1.pr p2.pr p0.m p1.m p0.n p2.n (csq p3) idx0 p0.m
  { Pval := b.Pval, Pidx := if decide (nlhs = 2) then some b.Pidx else none }

/-- Centers `(0,0)` and `(10,10)`. -/
def exCenters : MxArray := matrix 2 2 [Dbl.zero, Dbl.ofInt 10, Dbl.zero, Dbl.ofInt 10]

/-- Center values `1` and `2`. -/
def exValues : MxArray := matrix 2 1 [Dbl.ofInt 1, Dbl.ofInt 2]

/-- The query point `(0,0)`. -/
def exOrigin : MxArray := matrix 1 2 [Dbl.zero, Dbl.zero]

/-- The query point `(5,5)`. -/
def exMiddle : MxArray := matrix 1 2 [Dbl.ofInt 5, Dbl.ofInt 5]

/-- The one-dimensional center `1`, at distance exactly 1 from `rimPoint`. -/
def rimCenter : MxArray := matrix 1 1 [Dbl.one]

/-- The value `7` of the center `rimCenter`. -/
def rimValue : MxArray := matrix 1 1 [Dbl.ofInt 7]

end interpnearest

/-! ## kmatrix2.c -/

namespace kmatrix2

/-- The output `plhs[0]`: an `m` x `n` matrix stored column by column. -/
structure Output where
  m : Nat
  n : Nat
  pr : Nat → Dbl

/-- The value `dsq = dx*dx + dy*dy` for point `i` of `A` and point `j` of `B`, with
`xa = &A[0]`, `ya = &A[Na]`, `xb = &B[0]`, `yb = &B[Nb]`. -/
def dsq (A B : Nat → Dbl) (Na Nb i j : Nat) : Dbl :=
  let dx := Dbl.sub (A i) (B j)
  let dy := Dbl.sub (A (Na + i)) (B (Nb + j))
  Dbl.add (Dbl.mul dx dx) (Dbl.mul dy dy)

/-- The offset `i + Na*j` as the C code computes it: `i`, `Na`, `j` are `unsigned int`, so
the sum is reduced modulo `2^32` before it indexes `K`. -/
def offset (Na i j : Nat) : Nat := (i + Na * j) % 2 ^ 32

/-- The inner loop `for (i=0; i<Na; i++)` of column `j` after `i` iterations.  `log` is the
C library function. -/
def rowLoop (log : Dbl → Dbl) (A B : Nat → Dbl) (Na Nb j : Nat) :
    Nat → (Nat → Dbl) → (Nat → Dbl)
  | 0, K => K
  | i + 1, K =>
    let K1 := rowLoop log A B Na Nb j i K
    let d := dsq A B Na Nb i j
    if Dbl.gt d Dbl.zero then setAt K1 (offset Na i j) (Dbl.mul d (log d)) else K1

/-- The outer loop `for (j=0; j<Nb; j++)` after `j` iterations, started on the zero-filled
matrix that `mxCreateNumericMatrix` returns. -/
def colLoop (log : Dbl → Dbl) (A B : Nat → Dbl) (Na Nb : Nat) : Nat → (Nat → Dbl)
  | 0 => fun _ => Dbl.zero
  | j + 1 => rowLoop log A B Na Nb j Na (colLoop log A B Na Nb j)

/-- The function `mexFunction` of kmatrix2.c.  `Na` and `Nb` are `unsigned int`: the row
counts are truncated to 32 bits.  Nothing is validated. -/
def mexFunction (log : Dbl → Dbl) (prhs0 prhs1 : MxArray) : Output :=
  let A := prhs0.pr
  let B := prhs1.pr
  let Na := prhs0.m % 2 ^ 32
  let Nb := prhs1.m % 2 ^ 32
  { m := Na, n := Nb, pr := colLoop log A B Na Nb Nb }

/-- The entry that the thin-plate-spline kernel prescribes for squared distance `d`:
`d * log d` when `d > 0`, and the untouched zero of the fresh matrix otherwise. -/
def kernel (log : Dbl → Dbl) (d : Dbl) : Dbl :=
  if Dbl.gt d Dbl.zero then Dbl.mul d (log d) else Dbl.zero

/-- The double `2.0`. -/
def two : Dbl := Dbl.fin false (2 ^ 1075)

/-- The double `4.0`. -/
def four : Dbl := Dbl.fin false (2 ^ 1076)

/-- A 65537 x 2 matrix of points: point 65536 is `(2, 0)`, every other point is `(0, 0)`. -/
def farA : MxArray :=
  { isDouble := true, ndim := 2, m := 65537, n := 2
    pr := fun t => if t = 65536 then two else Dbl.zero }

/-- A 65537 x 2 matrix of points, all `(0, 0)`. -/
def farB : MxArray :=
  { isDouble := true, ndim := 2, m := 65537, n := 2, pr := fun _ => Dbl.zero }

/-- A 65537 x 2 matrix of points: point 1 is `(2, 0)`, every other point is `(0, 0)`. -/
def wrapA : MxArray :=
  { isDouble := true, ndim := 2, m := 65537, n := 2
    pr := fun t => if t = 1 then two else Dbl.zero }

end kmatrix2

/-! ## quickfind_mex.c and quickmax_mex.c -/

/-- What the unwrap kernels read of a MATLAB array: its class and, through `mxGetData`, its
elements in linear order (`mxGetNumberOfElements` is the length).  A `uint32` element is a
natural number below `2^32`. -/
inductive MxData where
  | logical (data : List Bool) : MxData
  | uint32 (data : List Nat) : MxData
  | double (data : List Dbl) : MxData
  | other (numel : Nat) : MxData

namespace quickfind_mex

/-- The search loop `for (k=...; k<Nidx; k++)` over the entries of `idx` not yet visited;
`idxout` still holds its initial `-1`. -/
def searchLoop (tf : List Bool) (Ntf : Nat) : List Nat → Except String Int
  | [] => .ok (-1)
  | i :: rest =>
    if i < 1 ∨ Ntf < i then .error "quickfind:indexerror"
    else if tf.getD (i - 1) false then .ok (i : Int)
    else searchLoop tf Ntf rest

/-- The function `mexFunction` of quickfind_mex.c. -/
def mexFunction (prhs0 prhs1 : MxData) : Except String Int :=
  match prhs0 with
  | .logical tf =>
    match prhs1 with
    | .uint32 idx => searchLoop tf tf.length idx
    | _ => .error "quickfind:inputerror"
  | _ => .error "quickfind:inputerror"

end quickfind_mex

namespace quickmax_mex

/-- The outputs `*val` and `*ind` while the scan runs. -/
structure Best where
  val : Dbl
  ind : Int

/-- The scan `for (k=0; k<Ne; k++)` after `k` iterations, started on `*val = -Inf`,
`*ind = -1`. -/
def scanLoop (matrix : List Dbl) (mask : List Bool) : Nat → Best
  | 0 => { val := Dbl.negInf, ind := -1 }
  | k + 1 =>
    let b := scanLoop matrix mask k
    if mask.getD k false && Dbl.gt (matrix.getD k Dbl.nan) b.val then
      { val := matrix.getD k Dbl.nan, ind := (k : Int) }
    else b

/-- The function `mexFunction` of quickmax_mex.c; the result is `(val, ind)`. -/
def mexFunction (prhs0 prhs1 : MxData) : Except String (Dbl × Int) :=
  match prhs0 with
  | .double matrix =>
    match prhs1 with
    | .logical mask =>
      let Ne := matrix.length
      let Ntf := mask.length
      if Ne ≠ Ntf then .error "quickmax:inputerror"
      else
        let b := scanLoop matrix mask Ne
        .ok (b.val, if b.ind ≠ -1 then b.ind + 1 else b.ind)
    | _ => .error "quickmax:inputerror"
  | _ => .error "quickmax:inputerror"

end quickmax_mex

/-! ## interpnearest.c: the scan without the short-circuit, stacked queries, accesses -/

namespace interpnearest

/-- The center loop without the short-circuit, as the specification describes the reference
scan: every center is visited, a center is kept when its squared distance is below the
minimum seen so far. -/
def centerLoopAll (P C : Nat → Dbl) (Np Nc Nd ip : Nat) : Nat → Nat → Locals → Locals
  | 0, _, st => st
  | rem + 1, ic, st =>
    let dsq := dsqLoop P C Np Nc ip ic Nd
    if Dbl.lt dsq st.mindsq then
      centerLoopAll P C Np Nc Nd ip rem (ic + 1) { mindsq := dsq, idx := ic, tf := true }
    else centerLoopAll P C Np Nc Nd ip rem (ic + 1) st

/-- One iteration of the point loop when the centers are scanned by `centerLoopAll`. -/
def pointBodyAll (flagidx : Bool) (P C Cval : Nat → Dbl) (Np Nc Nd Nv : Nat) (csq : Dbl)
    (ip : Nat) (b : Bufs) : Bufs :=
  let st := centerLoopAll P C Np Nc Nd ip Nc 0 { mindsq := csq, idx := b.idx, tf := false }
  if st.tf then
    { Pval := copyLoop Cval Np Nc ip st.idx Nv b.Pval
      Pidx := if flagidx then setAt b.Pidx ip ((st.idx : Int) + 1) else b.Pidx
      idx := st.idx }
  else
    { Pval := nanLoop Np ip Nv b.Pval
      Pidx := if flagidx then setAt b.Pidx ip 0 else b.Pidx
      idx := st.idx }

/-- The point loop after `n` iterations when the centers are scanned by `centerLoopAll`. -/
def pointLoopAll (flagidx : Bool) (P C Cval : Nat → Dbl) (Np Nc Nd Nv : Nat) (csq : Dbl)
    (idx0 : Nat) : Nat → Bufs
  | 0 => { Pval := fun _ => Dbl.zero, Pidx := fun _ => 0, idx := idx0 }
  | ip + 1 =>
    pointBodyAll flagidx P C Cval Np Nc Nd Nv csq ip
      (pointLoopAll flagidx P C Cval Np Nc Nd Nv csq idx0 ip)

/-- The outputs of a valid call when the centers are scanned by `centerLoopAll`. -/
def resultAll (idx0 nlhs : Nat) (p0 p1 p2 p3 : MxArray) : Output :=
  let b := pointLoopAll (decide (nlhs = 2)) p0.pr p1.pr p2.pr p0.m p1.m p0.n p2.n (csq p3)
    idx0 p0.m
  { Pval := b.Pval, Pidx := if decide (nlhs = 2) then some b.Pidx else none }

/-- The point set whose rows are the rows of `pa` followed by the rows of `pb`, stored
column by column: offset `t` is row `t % m` of column `t / m`, with `m` the total number of
rows. -/
def vcat (pa pb : MxArray) : MxArray :=
  { isDouble := pa.isDouble && pb.isDouble
    ndim := 2
    m := pa.m + pb.m
    n := pa.n
    pr := fun t =>
      let i := t % (pa.m + pb.m)
      let k := t / (pa.m + pb.m)
      if i < pa.m then pa.pr (i + pa.m * k) else pb.pr (i - pa.m + pb.m * k) }

/-- One access of `mexFunction` to a buffer, or a read of the local `idx`; `assigned` tells
whether `idx` had been assigned before the read. -/
inductive Access where
  | readP (off : Nat) : Access
  | readC (off : Nat) : Access
  | readCval (off : Nat) : Access
  | writePval (off : Nat) : Access
  | writePidx (off : Nat) : Access
  | readIdx (assigned : Bool) (value : Nat) : Access

/-- The access is legal when `P`, `C`, `Cval`, `Pval`, `Pidx` hold `sizeP`, `sizeC`,
`sizeCval`, `sizePval`, `sizePidx` elements and there are `Nc` centers: the offset lies
inside the buffer; a read of `idx` finds an assigned value below `Nc`. -/
def Access.inBounds (sizeP sizeC sizeCval sizePval sizePidx Nc : Nat) : Access → Prop
  | .readP off => off < sizeP
  | .readC off => off < sizeC
  | .readCval off => off < sizeCval
  | .writePval off => off < sizePval
  | .writePidx off => off < sizePidx
  | .readIdx assigned value => assigned = true ∧ value < Nc

/-- The accesses of the distance loop after `k` iterations: `P[ip+Np*k]` and `C[ic+Nc*k]`
in each iteration. -/
def dsqAccesses (Np Nc ip ic : Nat) : Nat → List Access
  | 0 => []
  | k + 1 => dsqAccesses Np Nc ip ic k ++ [.readP (ip + Np * k), .readC (ic + Nc * k)]

/-- The center loop `centerLoop` together with the flag "idx has been assigned" and the
accesses made. -/
def centerLoopT (P C : Nat → Dbl) (Np Nc Nd ip : Nat) :
    Nat → Nat → Locals × Bool → (Locals × Bool) × List Access
  | 0, _, s => (s, [])
  | rem + 1, ic, s =>
    let dsq := dsqLoop P C Np Nc ip ic Nd
    let tr := dsqAccesses Np Nc ip ic Nd
    if Dbl.lt dsq s.1.mindsq then
      let s1 : Locals × Bool := ({ mindsq := dsq, idx := ic, tf := true }, true)
      if Dbl.eq dsq Dbl.zero then (s1, tr)
      else
        let r := centerLoopT P C Np Nc Nd ip rem (ic + 1) s1
        (r.1, tr ++ r.2)
    else
      let r := centerLoopT P C Np Nc Nd ip rem (ic + 1) s
      (r.1, tr ++ r.2)

/-- The accesses of the loop `for (k=0; k<Nv; k++) Pval[ip+Np*k] = Cval[idx+Nc*k];` after
`k` iterations: each iteration reads `idx`, reads `Cval` and writes `Pval`. -/
def copyAccesses (Np Nc ip idx : Nat) (assigned : Bool) : Nat → List Access
  | 0 => []
  | k + 1 =>
    copyAccesses Np Nc ip idx assigned k ++
      [.readIdx assigned idx, .readCval (idx + Nc * k), .writePval (ip + Np * k)]

/-- The accesses of the loop `for (k=0; k<Nv; k++) Pval[ip+Np*k] = nan;` after `k`
iterations. -/
def nanAccesses (Np ip : Nat) : Nat → List Access
  | 0 => []
  | k + 1 => nanAccesses Np ip k ++ [.writePval (ip + Np * k)]

/-- One iteration of the point loop, as `pointBody`, with the flag "idx has been assigned"
and the accesses made. -/
def pointBodyT (flagidx : Bool) (P C Cval : Nat → Dbl) (Np Nc Nd Nv : Nat) (csq : Dbl)
    (ip : Nat) (s : Bufs × Bool) : (Bufs × Bool) × List Access :=
  let r := centerLoopT P C Np Nc Nd ip Nc 0
    ({ mindsq := csq, idx := s.1.idx, tf := false }, s.2)
  let st := r.1.1
  let assigned := r.1.2
  if st.tf then
    (({ Pval := copyLoop Cval Np Nc ip st.idx Nv s.1.Pval
        Pidx := if flagidx then setAt s.1.Pidx ip ((st.idx : Int) + 1) else s.1.Pidx
        idx := st.idx }, assigned),
      r.2 ++ (if flagidx then [.readIdx assigned st.idx, .writePidx ip] else []) ++
        copyAccesses Np Nc ip st.idx assigned Nv)
  else
    (({ Pval := nanLoop Np ip Nv s.1.Pval
        Pidx := if flagidx then setAt s.1.Pidx ip 0 else s.1.Pidx
        idx := st.idx }, assigned),
      r.2 ++ (if flagidx then [.writePidx ip] else []) ++ nanAccesses Np ip Nv)

/-- The point loop after `n` iterations, as `pointLoop`, with the flag "idx has been
assigned" (false at the start: the local is uninitialised) and all accesses made so far. -/
def pointLoopT (flagidx : Bool) (P C Cval : Nat → Dbl) (Np Nc Nd Nv : Nat) (csq : Dbl)
    (idx0 : Nat) : Nat → (Bufs × Bool) × List Access
  | 0 => (({ Pval := fun _ => Dbl.zero, Pidx := fun _ => 0, idx := idx0 }, false), [])
  | ip + 1 =>
    let prev := pointLoopT flagidx P C Cval Np Nc Nd Nv csq idx0 ip
    let r := pointBodyT flagidx P C Cval Np Nc Nd Nv csq ip prev.1
    (r.1, prev.2 ++ r.2)

/-- The accesses of a valid call, in the order in which the point loop makes them. -/
def accesses (idx0 nlhs : Nat) (p0 p1 p2 p3 : MxArray) : List Access :=
  (pointLoopT (decide (nlhs = 2)) p0.pr p1.pr p2.pr p0.m p1.m p0.n p2.n (csq p3) idx0
    p0.m).2

/-- Query points `(0,0)` and `(5,5)`, one row each of `exOrigin` and `exMiddle`. -/
def exBoth : MxArray := vcat exOrigin exMiddle

end interpnearest

/-! ## kmatrix2.c: a small input -/

namespace kmatrix2

/-- The points `(0,0)` and `(2,0)` as a 2 x 2 matrix. -/
def exA : MxArray :=
  interpnearest.matrix 2 2 [Dbl.zero, two, Dbl.zero, Dbl.zero]

/-- The point `(0,0)` as a 1 x 2 matrix. -/
def exB : MxArray := interpnearest.matrix 1 2 [Dbl.zero, Dbl.zero]

end kmatrix2

/-! ## The squared Euclidean distance, exactly -/

namespace Dbl

/-- The double `x` is finite with a clear sign bit and its value is `E * 2^(-2148)`. -/
def IsExact (x : Dbl) (E : Int) : Prop :=
  ∃ m : Nat, x = fin false m ∧ (m : Int) * 2 ^ 1074 = E

end Dbl

namespace interpnearest

end interpnearest

/-! ## Facts about binary64 comparisons and signs -/

namespace Dbl

theorem lt_irrefl (a : Dbl) : lt a a = false := by
  cases a <;> simp [lt]

theorem lt_trans {a b c : Dbl} (hab : lt a b = true) (hbc : lt b c = true) :
    lt a c = true := by
  cases a <;> cases b <;> cases c <;> simp_all [lt]
  all_goals omega

theorem lt_of_lt_of_not_lt {a b m : Dbl} (ham : lt a m = true) (hbm : lt b m = false)
    (hb : isNaN b = false) : lt a b = true := by
  cases a <;> cases b <;> cases m <;> simp_all [lt, isNaN]
  all_goals omega

theorem not_lt_of_not_lt_of_lt {a b m : Dbl} (ham : lt a m = true) (hbm : lt b m = false) :
    lt b a = false := by
  cases h : lt b a
  · rfl
  · rw [lt_trans h ham] at hbm
    exact absurd hbm (by decide)

theorem lt_of_not_gt_of_lt {v a b : Dbl} (hva : lt v a = false) (hvb : lt v b = true)
    (ha : isNaN a = false) : lt a b = true := by
  cases v <;> cases a <;> cases b <;> simp_all [lt, isNaN]
  all_goals omega

theorem not_gt_of_not_gt_of_lt {v a b : Dbl} (hva : lt v a = false) (hvb : lt v b = true) :
    lt b a = false := by
  cases h : lt b a
  · rfl
  · rw [lt_trans hvb h] at hva
    exact absurd hva (by decide)

theorem le_of_not_lt {a b : Dbl} (ha : isNaN a = false) (hb : isNaN b = false)
    (h : lt b a = false) : le a b = true := by
  cases a with
  | nan => simp [isNaN] at ha
  | inf sa =>
    cases b with
    | nan => simp [isNaN] at hb
    | inf sb => cases sa <;> cases sb <;> simp_all [le, lt, eq]
    | fin sb mb => cases sa <;> simp_all [le, lt, eq]
  | fin sa ma =>
    cases b with
    | nan => simp [isNaN] at hb
    | inf sb => cases sb <;> simp_all [le, lt, eq]
    | fin sb mb =>
      simp only [lt, decide_eq_false_iff_not] at h
      simp only [le, lt, eq, Bool.or_eq_true, decide_eq_true_eq]
      omega

theorem eq_of_lt_false {a b : Dbl} (h : lt a b = true) : eq a b = false ∧ eq b a = false := by
  cases a <;> cases b <;> simp_all [lt, eq]
  all_goals omega

theorem not_lt_zero_of_signClear {a : Dbl} (h : signClear a = true) : lt a zero = false := by
  cases a <;> simp_all [lt, signClear, zero, sval]

theorem not_lt_of_eq_zero {a b : Dbl} (ha : signClear a = true) (hb : eq b zero = true) :
    lt a b = false := by
  cases a <;> cases b <;> simp_all [lt, signClear, eq, zero, sval]

theorem mul_neg_self (x : Dbl) : mul (neg x) (neg x) = mul x x := by
  cases x <;> simp [mul, neg]

theorem sval_not (s : Bool) (m : Nat) : sval (!s) m = -sval s m := by
  cases s <;> simp [sval]

theorem mul_self_ofExact (s t : Bool) (M sh : Nat) :
    mul (ofExact s M sh) (ofExact s M sh) = mul (ofExact t M sh) (ofExact t M sh) := by
  unfold ofExact
  cases roundMag M sh <;> simp [mul]

theorem mul_self_sub_comm (a b : Dbl) :
    mul (sub a b) (sub a b) = mul (sub b a) (sub b a) := by
  cases a with
  | nan => cases b <;> rfl
  | inf sa =>
    cases b with
    | nan => rfl
    | inf sb => cases sa <;> cases sb <;> rfl
    | fin sb mb => simp [sub, neg, add, mul]
  | fin sa ma =>
    cases b with
    | nan => rfl
    | inf sb => simp [sub, neg, add, mul]
    | fin sb mb =>
      simp only [sub, neg, add, sval_not]
      by_cases hz : sval sa ma + -sval sb mb = 0
      · have hz' : sval sb mb + -sval sa ma = 0 := by omega
        simp [hz, hz', mul]
      · have hz' : ¬ (sval sb mb + -sval sa ma = 0) := by omega
        have habs : (sval sb mb + -sval sa ma).natAbs = (sval sa ma + -sval sb mb).natAbs := by
          omega
        simp only [hz, hz', if_false, habs]
        exact mul_self_ofExact _ _ _ _

theorem sub_self_sq (a : Dbl) :
    mul (sub a a) (sub a a) = nan ∨ mul (sub a a) (sub a a) = zero := by
  cases a with
  | nan => exact Or.inl rfl
  | inf s => cases s <;> exact Or.inl rfl
  | fin s m =>
    refine Or.inr ?_
    have h : sub (fin s m) (fin s m) = zero := by
      simp only [sub, neg, add, sval_not]
      have hz : sval s m + -sval s m = 0 := by omega
      simp [hz, zero]
    rw [h]
    decide

theorem signClear_ofExact (M sh : Nat) : signClear (ofExact false M sh) = true := by
  unfold ofExact
  cases roundMag M sh <;> rfl

theorem signClear_mul_self (d : Dbl) : signClear (mul d d) = true := by
  cases d with
  | nan => rfl
  | inf s => simp [mul, signClear]
  | fin s m => simp only [mul, Bool.xor_self]; exact signClear_ofExact _ _

theorem signClear_add {a b : Dbl} (ha : signClear a = true) (hb : signClear b = true) :
    signClear (add a b) = true := by
  cases a with
  | nan => cases b <;> rfl
  | inf sa =>
    cases b with
    | nan => rfl
    | inf sb => simp_all [add, signClear]
    | fin sb mb => simpa [add, signClear] using ha
  | fin sa ma =>
    cases b with
    | nan => rfl
    | inf sb => simpa [add, signClear] using hb
    | fin sb mb =>
      have hsa : sa = false := by simpa [signClear] using ha
      have hsb : sb = false := by simpa [signClear] using hb
      subst hsa hsb
      have hz : decide ((ma : Int) + (mb : Int) < 0) = false := by
        simp only [decide_eq_false_iff_not]; omega
      by_cases h0 : (ma : Int) + (mb : Int) = 0
      · simp [add, sval, h0, signClear]
      · simp only [add, sval, Bool.false_eq_true, if_false, h0, hz]
        exact signClear_ofExact _ _

end Dbl

/-! ## Column-major offsets -/

theorem stride_inj {Np ip iq k l : Nat} (hip : ip < Np) (hiq : iq < Np)
    (h : ip + Np * k = iq + Np * l) : ip = iq ∧ k = l := by
  have h1 : (ip + Np * k) % Np = (iq + Np * l) % Np := by rw [h]
  rw [Nat.add_mul_mod_self_left, Nat.add_mul_mod_self_left, Nat.mod_eq_of_lt hip,
    Nat.mod_eq_of_lt hiq] at h1
  subst h1
  have h2 : Np * k = Np * l := Nat.add_left_cancel h
  exact ⟨rfl, Nat.eq_of_mul_eq_mul_left (by omega) h2⟩

/-! ## interpnearest: the scan of the centers -/

namespace interpnearest

theorem signClear_dsqLoop (P C : Nat → Dbl) (Np Nc ip ic : Nat) (k : Nat) :
    Dbl.signClear (dsqLoop P C Np Nc ip ic k) = true := by
  induction k with
  | zero => rfl
  | succ k ih => exact Dbl.signClear_add ih (Dbl.signClear_mul_self _)

theorem centerLoop_scanned (P C : Nat → Dbl) (Np Nc Nd ip : Nat) (csq : Dbl) :
    ∀ (rem ic : Nat) (st : Locals), ic + rem = Nc →
      Scanned (fun j => dsqLoop P C Np Nc ip j Nd) csq ic st →
      Scanned (fun j => dsqLoop P C Np Nc ip j Nd) csq Nc
        (centerLoop P C Np Nc Nd ip rem ic st) := by
  intro rem
  induction rem with
  | zero =>
    intro ic st hic h
    have : ic = Nc := by omega
    subst this
    exact h
  | succ rem ih =>
    intro ic st hic h
    obtain ⟨hmin, hno, hyes⟩ := h
    simp only [centerLoop]
    by_cases hlt : Dbl.lt (dsqLoop P C Np Nc ip ic Nd) st.mindsq = true
    · simp only [hlt, if_true]
      have hbelow : Dbl.lt (dsqLoop P C Np Nc ip ic Nd) csq = true := by
        cases htf : st.tf
        · rw [← hno htf]; exact hlt
        · exact Dbl.lt_trans hlt (by simpa using (hyes htf).2.2.1)
      have hearlier : ∀ j, j < ic → Dbl.lt (dsqLoop P C Np Nc ip j Nd)
          (dsqLoop P C Np Nc ip ic Nd) = false :=
        fun j hj => Dbl.not_lt_of_not_lt_of_lt hlt (hmin j hj)
      by_cases hz : Dbl.eq (dsqLoop P C Np Nc ip ic Nd) Dbl.zero = true
      · simp only [hz, if_true]
        refine ⟨fun j _ => ?_, fun h => absurd h (by simp), fun _ => ⟨by simp; omega, rfl, hbelow, ?_⟩⟩
        · exact Dbl.not_lt_of_eq_zero (signClear_dsqLoop P C Np Nc ip j Nd) hz
        · intro j hj
          by_cases hn : Dbl.isNaN (dsqLoop P C Np Nc ip j Nd) = true
          · exact Or.inr hn
          · exact Or.inl (Dbl.lt_of_lt_of_not_lt hlt (hmin j hj) (by simpa using hn))
      · simp only [hz, Bool.false_eq_true, if_false]
        apply ih (ic + 1) _ (by omega)
        refine ⟨fun j hj => ?_, fun h => absurd h (by simp), fun _ => ⟨by simp, rfl, hbelow, ?_⟩⟩
        · rcases Nat.lt_succ_iff_lt_or_eq.mp hj with hj | hj
          · exact hearlier j hj
          · subst hj; exact Dbl.lt_irrefl _
        · intro j hj
          by_cases hn : Dbl.isNaN (dsqLoop P C Np Nc ip j Nd) = true
          · exact Or.inr hn
          · exact Or.inl (Dbl.lt_of_lt_of_not_lt hlt (hmin j hj) (by simpa using hn))
    · have hlt : Dbl.lt (dsqLoop P C Np Nc ip ic Nd) st.mindsq = false := by simpa using hlt
      simp only [hlt, Bool.false_eq_true, if_false]
      apply ih (ic + 1) _ (by omega)
      refine ⟨fun j hj => ?_, hno, fun h => ?_⟩
      · rcases Nat.lt_succ_iff_lt_or_eq.mp hj with hj | hj
        · exact hmin j hj
        · subst hj; exact hlt
      · obtain ⟨h1, h2, h3, h4⟩ := hyes h
        exact ⟨by omega, h2, h3, h4⟩

theorem scanned_init (d : Nat → Dbl) (csq : Dbl) (idx : Nat) :
    Scanned d csq 0 { mindsq := csq, idx := idx, tf := false } :=
  ⟨fun _ hj => absurd hj (Nat.not_lt_zero _), fun _ => rfl, fun h => absurd h (by simp)⟩

theorem copyLoop_other (Cval : Nat → Dbl) (Np Nc ip idx : Nat) (Pval : Nat → Dbl) (t : Nat) :
    ∀ n, (∀ k, k < n → t ≠ ip + Np * k) → copyLoop Cval Np Nc ip idx n Pval t = Pval t := by
  intro n
  induction n with
  | zero => intro _; rfl
  | succ n ih =>
    intro h
    simp only [copyLoop, setAt]
    rw [if_neg (h n (by omega))]
    exact ih (fun k hk => h k (by omega))

theorem copyLoop_at (Cval : Nat → Dbl) (Np Nc ip idx : Nat) (Pval : Nat → Dbl)
    (hip : ip < Np) :
    ∀ n k, k < n → copyLoop Cval Np Nc ip idx n Pval (ip + Np * k) = Cval (idx + Nc * k) := by
  intro n
  induction n with
  | zero => intro k hk; omega
  | succ n ih =>
    intro k hk
    simp only [copyLoop, setAt]
    by_cases hkn : k = n
    · subst hkn; simp
    · have hne : ip + Np * k ≠ ip + Np * n := fun h => hkn (stride_inj hip hip h).2
      rw [if_neg hne]
      exact ih k (by omega)

theorem nanLoop_other (Np ip : Nat) (Pval : Nat → Dbl) (t : Nat) :
    ∀ n, (∀ k, k < n → t ≠ ip + Np * k) → nanLoop Np ip n Pval t = Pval t := by
  intro n
  induction n with
  | zero => intro _; rfl
  | succ n ih =>
    intro h
    simp only [nanLoop, setAt]
    rw [if_neg (h n (by omega))]
    exact ih (fun k hk => h k (by omega))

theorem nanLoop_at (Np ip : Nat) (Pval : Nat → Dbl) :
    ∀ n k, k < n → nanLoop Np ip n Pval (ip + Np * k) = Dbl.nan := by
  intro n
  induction n with
  | zero => intro k hk; omega
  | succ n ih =>
    intro k hk
    simp only [nanLoop, setAt]
    by_cases hkn : ip + Np * k = ip + Np * n
    · rw [if_pos hkn]
    · rw [if_neg hkn]
      have : k ≠ n := fun h => hkn (by rw [h])
      exact ih k (by omega)

theorem pointBody_Pval_other (flagidx : Bool) (P C Cval : Nat → Dbl) (Np Nc Nd Nv : Nat)
    (csq : Dbl) (n : Nat) (b : Bufs) (t : Nat) (h : ∀ k, k < Nv → t ≠ n + Np * k) :
    (pointBody flagidx P C Cval Np Nc Nd Nv csq n b).Pval t = b.Pval t := by
  simp only [pointBody]
  split
  · exact copyLoop_other _ _ _ _ _ _ _ _ h
  · exact nanLoop_other _ _ _ _ _ h

theorem pointBody_Pidx_other (flagidx : Bool) (P C Cval : Nat → Dbl) (Np Nc Nd Nv : Nat)
    (csq : Dbl) (n : Nat) (b : Bufs) (ip : Nat) (h : ip ≠ n) :
    (pointBody flagidx P C Cval Np Nc Nd Nv csq n b).Pidx ip = b.Pidx ip := by
  simp only [pointBody]
  split <;> cases flagidx <;> simp [setAt, h]

theorem pointBody_preserves (flagidx : Bool) (P C Cval : Nat → Dbl) (Np Nc Nd Nv : Nat)
    (csq : Dbl) (n ip : Nat) (b : Bufs) (hn : n < Np) (hip : ip < Np) (hne : ip ≠ n)
    (h : RowDone flagidx P C Cval Np Nc Nd Nv csq ip b) :
    RowDone flagidx P C Cval Np Nc Nd Nv csq ip
      (pointBody flagidx P C Cval Np Nc Nd Nv csq n b) := by
  obtain ⟨st, hst, hrow⟩ := h
  have hval : ∀ k, (pointBody flagidx P C Cval Np Nc Nd Nv csq n b).Pval (ip + Np * k)
      = b.Pval (ip + Np * k) := fun k =>
    pointBody_Pval_other _ _ _ _ _ _ _ _ _ _ _ _
      (fun l _ heq => hne (stride_inj hip hn heq).1)
  have hidx := pointBody_Pidx_other flagidx P C Cval Np Nc Nd Nv csq n b ip hne
  refine ⟨st, hst, ?_⟩
  rcases hrow with ⟨htf, hv, hi⟩ | ⟨htf, hv, hi⟩
  · exact Or.inl ⟨htf, fun k hk => by rw [hval]; exact hv k hk, fun hf => by rw [hidx]; exact hi hf⟩
  · exact Or.inr ⟨htf, fun k hk => by rw [hval]; exact hv k hk, fun hf => by rw [hidx]; exact hi hf⟩

theorem pointBody_done (flagidx : Bool) (P C Cval : Nat → Dbl) (Np Nc Nd Nv : Nat)
    (csq : Dbl) (n : Nat) (b : Bufs) (hn : n < Np) :
    RowDone flagidx P C Cval Np Nc Nd Nv csq n
      (pointBody flagidx P C Cval Np Nc Nd Nv csq n b) := by
  have hsc := centerLoop_scanned P C Np Nc Nd n csq Nc 0
    { mindsq := csq, idx := b.idx, tf := false } (by omega) (scanned_init _ csq b.idx)
  refine ⟨_, hsc, ?_⟩
  simp only [pointBody]
  cases htf : (centerLoop P C Np Nc Nd n Nc 0 { mindsq := csq, idx := b.idx, tf := false }).tf
  · refine Or.inr ⟨rfl, fun k hk => ?_, fun hf => ?_⟩
    · simp only [Bool.false_eq_true, if_false]
      exact nanLoop_at _ _ _ _ _ hk
    · simp [hf, setAt]
  · refine Or.inl ⟨rfl, fun k hk => ?_, fun hf => ?_⟩
    · simp only [if_true]
      exact copyLoop_at _ _ _ _ _ _ hn _ _ hk
    · simp [hf, setAt]

theorem pointLoop_rows (flagidx : Bool) (P C Cval : Nat → Dbl) (Np Nc Nd Nv : Nat)
    (csq : Dbl) (idx0 : Nat) :
    ∀ n, n ≤ Np → ∀ ip, ip < n →
      RowDone flagidx P C Cval Np Nc Nd Nv csq ip
        (pointLoop flagidx P C Cval Np Nc Nd Nv csq idx0 n) := by
  intro n
  induction n with
  | zero => intro _ ip hip; omega
  | succ n ih =>
    intro hn ip hip
    simp only [pointLoop]
    by_cases heq : ip = n
    · subst heq
      exact pointBody_done _ _ _ _ _ _ _ _ _ _ _ (by omega)
    · exact pointBody_preserves _ _ _ _ _ _ _ _ _ _ _ _ (by omega) (by omega) heq
        (ih (by omega) ip (by omega))

end interpnearest

/-! ## interpnearest: the whole call -/

namespace interpnearest

theorem mexFunction_eq (idx0 nlhs : Nat) (p0 p1 p2 p3 : MxArray) :
    mexFunction idx0 nlhs [p0, p1, p2, p3] =
      if (nlhs = 1 ∨ nlhs = 2) ∧ (p0.isDouble = true ∧ p0.ndim = 2) ∧
          (p1.isDouble = true ∧ p1.ndim = 2 ∧ p1.n = p0.n) ∧
          (p2.isDouble = true ∧ p2.ndim = 2 ∧ p2.m = p1.m) ∧
          (p3.isDouble = true ∧ p3.numel = 1) ∧ Dbl.le (p3.pr 0) Dbl.zero = false
      then .ok (result idx0 nlhs p0 p1 p2 p3)
      else .error "interpnearest:invalidInput" := by
  by_cases h1 : nlhs = 1 ∨ nlhs = 2
  · have h1' : ¬ (nlhs ≠ 1 ∧ nlhs ≠ 2) := by omega
    cases h2 : p0.isDouble <;> cases h3 : p1.isDouble <;> cases h4 : p2.isDouble <;>
      cases h5 : p3.isDouble <;> simp [mexFunction, h1, h1', h2, h3, h4, h5]
    by_cases h6 : p0.ndim = 2 <;> by_cases h7 : p1.ndim = 2 <;> by_cases h8 : p1.n = p0.n <;>
      by_cases h9 : p2.ndim = 2 <;> by_cases h10 : p2.m = p1.m <;>
      by_cases h11 : p3.numel = 1 <;>
      cases h12 : Dbl.le (p3.pr 0) Dbl.zero <;>
      simp [h6, h7, h8, h9, h10, h11, h12, result, csq]
  · have h1' : nlhs ≠ 1 ∧ nlhs ≠ 2 := by omega
    simp [mexFunction, h1, h1']

theorem mexFunction_ok {idx0 nlhs : Nat} {p0 p1 p2 p3 : MxArray} {out : Output}
    (h : mexFunction idx0 nlhs [p0, p1, p2, p3] = .ok out) :
    (nlhs = 1 ∨ nlhs = 2) ∧ p1.n = p0.n ∧ p2.m = p1.m ∧
      Dbl.le (p3.pr 0) Dbl.zero = false ∧ out = result idx0 nlhs p0 p1 p2 p3 := by
  rw [mexFunction_eq] at h
  split at h
  · rename_i hv
    simp only [Except.ok.injEq] at h
    exact ⟨hv.1, hv.2.2.1.2.2, hv.2.2.2.1.2.2, hv.2.2.2.2.2, h.symm⟩
  · simp at h

theorem mexFunction_isOk_iff (idx0 nlhs : Nat) (p0 p1 p2 p3 : MxArray) :
    (∃ out, mexFunction idx0 nlhs [p0, p1, p2, p3] = .ok out) ↔
      ((nlhs = 1 ∨ nlhs = 2) ∧ (p0.isDouble = true ∧ p0.ndim = 2) ∧
        (p1.isDouble = true ∧ p1.ndim = 2 ∧ p1.n = p0.n) ∧
        (p2.isDouble = true ∧ p2.ndim = 2 ∧ p2.m = p1.m) ∧
        (p3.isDouble = true ∧ p3.numel = 1) ∧ Dbl.le (p3.pr 0) Dbl.zero = false) := by
  rw [mexFunction_eq]
  constructor
  · rintro ⟨out, h⟩
    split at h
    · assumption
    · simp at h
  · intro hv
    exact ⟨_, if_pos hv⟩

theorem rows_of_ok {idx0 nlhs : Nat} {p0 p1 p2 p3 : MxArray} {out : Output}
    (h : mexFunction idx0 nlhs [p0, p1, p2, p3] = .ok out) (ip : Nat) (hip : ip < p0.m) :
    ∃ b : Bufs, out.Pval = b.Pval ∧
      out.Pidx = (if decide (nlhs = 2) then some b.Pidx else none) ∧
      RowDone (decide (nlhs = 2)) p0.pr p1.pr p2.pr p0.m p1.m p0.n p2.n (csq p3) ip b := by
  obtain ⟨_, _, _, _, hout⟩ := mexFunction_ok h
  subst hout
  exact ⟨_, rfl, rfl, pointLoop_rows _ _ _ _ _ _ _ _ _ _ _ (Nat.le_refl _) ip hip⟩

/-- What a successful call with an index output says about row `ip`: the locals `st` that
account for all centers, and the row written from them. -/
theorem row_cases {idx0 nlhs : Nat} {p0 p1 p2 p3 : MxArray} {out : Output}
    (h : mexFunction idx0 nlhs [p0, p1, p2, p3] = .ok out) (ip : Nat) (hip : ip < p0.m) :
    ∃ st : Locals, Scanned (fun j => dsq p0 p1 ip j) (csq p3) p1.m st ∧
      ((st.tf = true ∧ (∀ k, k < p2.n → out.Pval (ip + p0.m * k) = p2.pr (st.idx + p1.m * k)) ∧
          (∀ pidx, out.Pidx = some pidx → pidx ip = (st.idx : Int) + 1)) ∨
       (st.tf = false ∧ (∀ k, k < p2.n → out.Pval (ip + p0.m * k) = Dbl.nan) ∧
          (∀ pidx, out.Pidx = some pidx → pidx ip = 0))) := by
  obtain ⟨b, hv, hi, st, hst, hrow⟩ := rows_of_ok h ip hip
  refine ⟨st, hst, ?_⟩
  have hflag : ∀ pidx, out.Pidx = some pidx → decide (nlhs = 2) = true ∧ pidx = b.Pidx := by
    intro pidx hp
    rw [hi] at hp
    split at hp
    · rename_i hf
      exact ⟨hf, by simpa using hp.symm⟩
    · simp at hp
  rcases hrow with ⟨htf, hval, hidx⟩ | ⟨htf, hval, hidx⟩
  · refine Or.inl ⟨htf, fun k hk => by rw [hv]; exact hval k hk, fun pidx hp => ?_⟩
    obtain ⟨hf, rfl⟩ := hflag pidx hp
    exact hidx hf
  · refine Or.inr ⟨htf, fun k hk => by rw [hv]; exact hval k hk, fun pidx hp => ?_⟩
    obtain ⟨hf, rfl⟩ := hflag pidx hp
    exact hidx hf

end interpnearest

/-! ## Properties of interpnearest -/

namespace interpnearest

/-- C3: in a successful call that emits indices, a query point `ip` whose index `i` is
nonzero has `1 ≤ i ≤ Nc`, and every value column `k < V` of its output row holds
`Cval[i-1, k]`: the value row and the index name the same center. -/
theorem matched_row_copies_indexed_center (idx0 nlhs : Nat) (p0 p1 p2 p3 : MxArray)
    (out : Output) (pidx : Nat → Int)
    (hok : mexFunction idx0 nlhs [p0, p1, p2, p3] = .ok out)
    (hidx : out.Pidx = some pidx) (ip : Nat) (hip : ip < p0.m) (hnz : pidx ip ≠ 0) :
    1 ≤ pidx ip ∧ pidx ip ≤ (p1.m : Int) ∧
      ∀ k, k < p2.n →
        out.Pval (ip + p0.m * k) = p2.pr ((pidx ip - 1).toNat + p1.m * k) := by
  obtain ⟨st, ⟨_, _, hyes⟩, hrow⟩ := row_cases hok ip hip
  rcases hrow with ⟨htf, hval, hi⟩ | ⟨_, _, hi⟩
  · obtain ⟨hlt, _, _, _⟩ := hyes htf
    have h := hi pidx hidx
    have hnat : (pidx ip - 1).toNat = st.idx := by omega
    refine ⟨by omega, by omega, fun k hk => ?_⟩
    rw [hnat]
    exact hval k hk
  · exact absurd (hi pidx hidx) hnz

/-- C3, on the example of the specification: the query point `(0,0)` is matched with center
1 and receives its value row. -/
theorem matched_row_copies_indexed_center_witness :
    (mexFunction 0 2 [exOrigin, exCenters, exValues, scalar Dbl.one]
        = .ok (result 0 2 exOrigin exCenters exValues (scalar Dbl.one))) ∧
      (pointLoop true exOrigin.pr exCenters.pr exValues.pr 1 2 2 1 (csq (scalar Dbl.one))
        0 1).Pidx 0 ≠ 0 ∧
      (1 ≤ (pointLoop true exOrigin.pr exCenters.pr exValues.pr 1 2 2 1
          (csq (scalar Dbl.one)) 0 1).Pidx 0 ∧
        (pointLoop true exOrigin.pr exCenters.pr exValues.pr 1 2 2 1
          (csq (scalar Dbl.one)) 0 1).Pidx 0 ≤ (exCenters.m : Int) ∧
        ∀ k, k < exValues.n →
          (result 0 2 exOrigin exCenters exValues (scalar Dbl.one)).Pval (0 + exOrigin.m * k)
            = exValues.pr (((pointLoop true exOrigin.pr exCenters.pr exValues.pr 1 2 2 1
                (csq (scalar Dbl.one)) 0 1).Pidx 0 - 1).toNat + exCenters.m * k)) :=
  ⟨by rfl, by decide,
    matched_row_copies_indexed_center 0 2 exOrigin exCenters exValues (scalar Dbl.one)
      (result 0 2 exOrigin exCenters exValues (scalar Dbl.one)) _ (by rfl) rfl 0
      (by decide) (by decide)⟩

end interpnearest

/-! ## Properties of quickfind -/

namespace quickfind_mex

theorem searchLoop_in_range (tf : List Bool) (Ntf : Nat) (idx : List Nat)
    (hin : ∀ x, x ∈ idx → 1 ≤ x ∧ x ≤ Ntf) :
    (∃ (k x : Nat), idx[k]? = some x ∧ tf.getD (x - 1) false = true ∧
        (∀ (j y : Nat), j < k → idx[j]? = some y → tf.getD (y - 1) false = false) ∧
        searchLoop tf Ntf idx = .ok (x : Int)) ∨
      ((∀ x, x ∈ idx → tf.getD (x - 1) false = false) ∧ searchLoop tf Ntf idx = .ok (-1)) := by
  induction idx with
  | nil => exact Or.inr ⟨fun x hx => absurd hx (List.not_mem_nil x), rfl⟩
  | cons i rest ih =>
    have hi := hin i (List.mem_cons_self i rest)
    have hrange : ¬ (i < 1 ∨ Ntf < i) := by omega
    simp only [searchLoop, if_neg hrange]
    cases htf : tf.getD (i - 1) false
    · simp only [Bool.false_eq_true, if_false]
      rcases ih (fun x hx => hin x (List.mem_cons_of_mem i hx)) with
        ⟨k, x, hk, hx, hbefore, hres⟩ | ⟨hnone, hres⟩
      · refine Or.inl ⟨k + 1, x, by simpa using hk, hx, fun j y hj hy => ?_, hres⟩
        cases j with
        | zero =>
          have : i = y := by simpa using hy
          rw [← this]; exact htf
        | succ j => exact hbefore j y (by omega) (by simpa using hy)
      · refine Or.inr ⟨fun x hx => ?_, hres⟩
        rcases List.mem_cons.mp hx with h | h
        · rw [h]; exact htf
        · exact hnone x h
    · simp only [if_true]
      exact Or.inl ⟨0, i, by simp, htf, fun j y hj _ => absurd hj (Nat.not_lt_zero j), rfl⟩

theorem searchLoop_bad_index (tf : List Bool) (Ntf : Nat) (idx : List Nat) :
    ∀ (k x : Nat), idx[k]? = some x → (x < 1 ∨ Ntf < x) →
      (∀ (j y : Nat), j < k → idx[j]? = some y → (1 ≤ y ∧ y ≤ Ntf) ∧ tf.getD (y - 1) false = false) →
      searchLoop tf Ntf idx = .error "quickfind:indexerror" := by
  induction idx with
  | nil => intro k x hk; simp at hk
  | cons i rest ih =>
    intro k x hk hbad hbefore
    cases k with
    | zero =>
      have : i = x := by simpa using hk
      subst this
      simp only [searchLoop, if_pos hbad]
    | succ k =>
      obtain ⟨hr, hf⟩ := hbefore 0 i (by omega) (by simp)
      have hrange : ¬ (i < 1 ∨ Ntf < i) := by omega
      simp only [searchLoop, if_neg hrange, hf, Bool.false_eq_true, if_false]
      exact ih k x (by simpa using hk) hbad
        (fun j y hj hy => hbefore (j + 1) y (by omega) (by simpa using hy))

theorem searchLoop_first_match (tf : List Bool) (Ntf : Nat) (idx : List Nat) :
    ∀ (k x : Nat), idx[k]? = some x → (1 ≤ x ∧ x ≤ Ntf) → tf.getD (x - 1) false = true →
      (∀ (j y : Nat), j < k → idx[j]? = some y →
        (1 ≤ y ∧ y ≤ Ntf) ∧ tf.getD (y - 1) false = false) →
      searchLoop tf Ntf idx = .ok (x : Int) := by
  induction idx with
  | nil => intro k x hk; simp at hk
  | cons i rest ih =>
    intro k x hk hin hhit hbefore
    cases k with
    | zero =>
      have : i = x := by simpa using hk
      subst this
      have hrange : ¬ (i < 1 ∨ Ntf < i) := by omega
      simp only [searchLoop, if_neg hrange, hhit, if_true]
    | succ k =>
      obtain ⟨hr, hf⟩ := hbefore 0 i (by omega) (by simp)
      have hrange : ¬ (i < 1 ∨ Ntf < i) := by omega
      simp only [searchLoop, if_neg hrange, hf, Bool.false_eq_true, if_false]
      exact ih k x (by simpa using hk) hin hhit
        (fun j y hj hy => hbefore (j + 1) y (by omega) (by simpa using hy))

/-- C5: for a logical buffer `tf` of size `N` and an index order `idx` with all entries in
`[1, N]`, the call returns `idx[k]` for the least position `k` with `tf[idx[k]-1]` true, and
returns `-1` when there is no such position (in particular for an empty `idx`). -/
theorem returns_first_true_in_order (tf : List Bool) (idx : List Nat)
    (hin : ∀ x, x ∈ idx → 1 ≤ x ∧ x ≤ tf.length) :
    (∃ (k x : Nat), idx[k]? = some x ∧ tf.getD (x - 1) false = true ∧
        (∀ (j y : Nat), j < k → idx[j]? = some y → tf.getD (y - 1) false = false) ∧
        mexFunction (.logical tf) (.uint32 idx) = .ok (x : Int)) ∨
      ((∀ x, x ∈ idx → tf.getD (x - 1) false = false) ∧
        mexFunction (.logical tf) (.uint32 idx) = .ok (-1)) :=
  searchLoop_in_range tf tf.length idx hin

/-- C5, on the example of the specification: `tf = [false,true,false,true]`,
`idx = [3,4,2]` gives 4. -/
theorem returns_first_true_in_order_witness :
    (∀ x, x ∈ [3, 4, 2] → 1 ≤ x ∧ x ≤ [false, true, false, true].length) ∧
      mexFunction (.logical [false, true, false, true]) (.uint32 [3, 4, 2]) = .ok 4 ∧
      ((∃ (k x : Nat), [3, 4, 2][k]? = some x ∧ [false, true, false, true].getD (x - 1) false = true ∧
          (∀ (j y : Nat), j < k → [3, 4, 2][j]? = some y →
            [false, true, false, true].getD (y - 1) false = false) ∧
          mexFunction (.logical [false, true, false, true]) (.uint32 [3, 4, 2])
            = .ok (x : Int)) ∨
        ((∀ x, x ∈ [3, 4, 2] → [false, true, false, true].getD (x - 1) false = false) ∧
          mexFunction (.logical [false, true, false, true]) (.uint32 [3, 4, 2])
            = .ok (-1))) :=
  ⟨by decide, by rfl,
    returns_first_true_in_order [false, true, false, true] [3, 4, 2] (by decide)⟩

/-- C9 as stated fails: with `tf = [true]` the order `idx = [1, 5]` contains the entry 5,
outside `[1, 1]`, yet the call returns 1 and raises no error: the scan stops at the match
before it reaches the offending entry. -/
theorem bad_index_after_match_is_ignored :
    (5 ∈ [1, 5] ∧ [true].length < 5) ∧
      mexFunction (.logical [true]) (.uint32 [1, 5]) = .ok 1 :=
  ⟨⟨by decide, by decide⟩, by rfl⟩

/-- C9, amended: what decides the call is the first entry of `idx` that is out of range or
matches.  When an entry outside `[1, N]` is reached, that is when every entry before it is
in range and has `tf` false, the call fails with `quickfind:indexerror`; when a matching
entry is reached in this way, the call returns it, whatever follows it in `idx`. -/
theorem fails_when_bad_index_is_reached (tf : List Bool) (idx : List Nat) (k x : Nat)
    (hk : idx[k]? = some x)
    (hbefore : ∀ (j y : Nat), j < k → idx[j]? = some y →
      (1 ≤ y ∧ y ≤ tf.length) ∧ tf.getD (y - 1) false = false) :
    ((x < 1 ∨ tf.length < x) →
        mexFunction (.logical tf) (.uint32 idx) = .error "quickfind:indexerror") ∧
      ((1 ≤ x ∧ x ≤ tf.length) ∧ tf.getD (x - 1) false = true →
        mexFunction (.logical tf) (.uint32 idx) = .ok (x : Int)) :=
  ⟨fun hbad => searchLoop_bad_index tf tf.length idx k x hk hbad hbefore,
    fun hhit => searchLoop_first_match tf tf.length idx k x hk hhit.1 hhit.2 hbefore⟩

/-- C9 amended, on `tf = [false, true]`, `idx = [1, 0, 2]`: the entry 0 is reached after the
false entry 1 and before the true entry 2. -/
theorem fails_when_bad_index_is_reached_witness :
    [1, 0, 2][1]? = some 0 ∧
      (∀ (j y : Nat), j < 1 → [1, 0, 2][j]? = some y →
        (1 ≤ y ∧ y ≤ [false, true].length) ∧ [false, true].getD (y - 1) false = false) ∧
      (0 < 1 ∨ [false, true].length < 0) ∧
      mexFunction (.logical [false, true]) (.uint32 [1, 0, 2])
        = .error "quickfind:indexerror" :=
  have hbefore : ∀ (j y : Nat), j < 1 → [1, 0, 2][j]? = some y →
      (1 ≤ y ∧ y ≤ [false, true].length) ∧ [false, true].getD (y - 1) false = false := by
    intro j y hj hy
    have hj0 : j = 0 := by omega
    subst hj0
    have hy1 : y = 1 := by simpa using hy.symm
    subst hy1
    decide
  ⟨rfl, hbefore, by decide,
    (fails_when_bad_index_is_reached [false, true] [1, 0, 2] 1 0 rfl hbefore).1 (by decide)⟩

end quickfind_mex

/-! ## Properties of quickmax -/

namespace quickmax_mex

theorem scanLoop_best (matrix : List Dbl) (mask : List Bool) :
    ∀ n : Nat,
      (∀ k, k < n → mask.getD k false = true →
        Dbl.lt (scanLoop matrix mask n).val (matrix.getD k Dbl.nan) = false) ∧
      ((scanLoop matrix mask n).ind = -1 → (scanLoop matrix mask n).val = Dbl.negInf) ∧
      ((scanLoop matrix mask n).ind ≠ -1 →
        ∃ i : Nat, i < n ∧ (scanLoop matrix mask n).ind = (i : Int) ∧
          mask.getD i false = true ∧
          matrix.getD i Dbl.nan = (scanLoop matrix mask n).val ∧
          Dbl.lt Dbl.negInf (scanLoop matrix mask n).val = true ∧
          ∀ k, k < i → mask.getD k false = true →
            Dbl.lt (matrix.getD k Dbl.nan) (scanLoop matrix mask n).val = true ∨
              Dbl.isNaN (matrix.getD k Dbl.nan) = true) := by
  intro n
  induction n with
  | zero =>
    refine ⟨fun k hk => absurd hk (Nat.not_lt_zero k), fun _ => rfl, fun h => ?_⟩
    exact absurd rfl h
  | succ n ih =>
    obtain ⟨hmax, hnone, hsome⟩ := ih
    by_cases hacc : (mask.getD n false &&
        Dbl.gt (matrix.getD n Dbl.nan) (scanLoop matrix mask n).val) = true
    · have hstep : scanLoop matrix mask (n + 1)
          = { val := matrix.getD n Dbl.nan, ind := (n : Int) } := by
        simp only [scanLoop, hacc, if_true]
      rw [hstep]
      simp only [Bool.and_eq_true, Dbl.gt] at hacc
      obtain ⟨hm, hgt⟩ := hacc
      have hbelow : ∀ k, k < n → mask.getD k false = true →
          Dbl.lt (matrix.getD n Dbl.nan) (matrix.getD k Dbl.nan) = false :=
        fun k hk hmk => Dbl.not_gt_of_not_gt_of_lt (hmax k hk hmk) hgt
      refine ⟨fun k hk hmk => ?_, fun h => ?_, fun _ => ⟨n, by omega, rfl, hm, rfl, ?_, ?_⟩⟩
      · rcases Nat.lt_succ_iff_lt_or_eq.mp hk with hk | hk
        · exact hbelow k hk hmk
        · subst hk; exact Dbl.lt_irrefl _
      · simp only at h; omega
      · by_cases hi : (scanLoop matrix mask n).ind = -1
        · rw [← hnone hi]; exact hgt
        · obtain ⟨_, _, _, _, _, hlow, _⟩ := hsome hi
          exact Dbl.lt_trans hlow hgt
      · intro k hk hmk
        by_cases hn : Dbl.isNaN (matrix.getD k Dbl.nan) = true
        · exact Or.inr hn
        · exact Or.inl (Dbl.lt_of_not_gt_of_lt (hmax k hk hmk) hgt (by simpa using hn))
    · have hstep : scanLoop matrix mask (n + 1) = scanLoop matrix mask n := by
        simp only [scanLoop, hacc, Bool.false_eq_true, if_false]
      rw [hstep]
      refine ⟨fun k hk hmk => ?_, hnone, fun h => ?_⟩
      · rcases Nat.lt_succ_iff_lt_or_eq.mp hk with hk | hk
        · exact hmax k hk hmk
        · subst hk
          simp only [hmk, Bool.true_and, Dbl.gt] at hacc
          simpa using hacc
      · obtain ⟨i, hi, rest⟩ := hsome h
        exact ⟨i, by omega, rest⟩

theorem mexFunction_eq_scan (matrix : List Dbl) (mask : List Bool)
    (hlen : matrix.length = mask.length) :
    mexFunction (.double matrix) (.logical mask) =
      .ok ((scanLoop matrix mask matrix.length).val,
        if (scanLoop matrix mask matrix.length).ind ≠ -1
        then (scanLoop matrix mask matrix.length).ind + 1
        else (scanLoop matrix mask matrix.length).ind) := by
  simp [mexFunction, hlen]

/-- C6 as stated fails: for `matrix = [NaN, 5]` with both elements masked true the call
returns `(5, 2)`, but position 1 is masked true, lies before position 2, and does not hold
a strictly smaller value: it holds NaN, which compares below nothing. -/
theorem nan_before_maximum_is_not_smaller :
    mexFunction (.double [Dbl.nan, Dbl.ofInt 5]) (.logical [true, true])
        = .ok (Dbl.ofInt 5, 2) ∧
      Dbl.gt (Dbl.ofInt 5) Dbl.negInf = true ∧
      [true, true].getD 0 false = true ∧
      Dbl.lt ([Dbl.nan, Dbl.ofInt 5].getD 0 Dbl.nan) (Dbl.ofInt 5) = false :=
  ⟨by rfl, by decide, by decide, by decide⟩

/-- C6, amended: for a matrix and a mask of equal element count `N` with at least one
masked-true element greater than `-Inf`, the call returns the value of a masked-true
element such that no masked-true element is greater (every masked-true element that is a
number is less or equal), together with the smallest 1-based position that is masked true
and holds that value; every masked-true position before it holds a strictly smaller value
or NaN. -/
theorem returns_first_masked_maximum (matrix : List Dbl) (mask : List Bool)
    (hlen : matrix.length = mask.length)
    (hex : ∃ k, k < matrix.length ∧ mask.getD k false = true ∧
      Dbl.gt (matrix.getD k Dbl.nan) Dbl.negInf = true) :
    ∃ i : Nat, i < matrix.length ∧ mask.getD i false = true ∧
      mexFunction (.double matrix) (.logical mask)
        = .ok (matrix.getD i Dbl.nan, (i : Int) + 1) ∧
      (∀ k, k < matrix.length → mask.getD k false = true →
        Dbl.gt (matrix.getD k Dbl.nan) (matrix.getD i Dbl.nan) = false) ∧
      (∀ k, k < matrix.length → mask.getD k false = true →
        Dbl.isNaN (matrix.getD k Dbl.nan) = false →
        Dbl.le (matrix.getD k Dbl.nan) (matrix.getD i Dbl.nan) = true) ∧
      (∀ k, k < i → mask.getD k false = true →
        Dbl.eq (matrix.getD k Dbl.nan) (matrix.getD i Dbl.nan) = false) ∧
      (∀ k, k < i → mask.getD k false = true →
        Dbl.lt (matrix.getD k Dbl.nan) (matrix.getD i Dbl.nan) = true ∨
          Dbl.isNaN (matrix.getD k Dbl.nan) = true) := by
  obtain ⟨hmax, hnone, hsome⟩ := scanLoop_best matrix mask matrix.length
  obtain ⟨k0, hk0, hm0, hgt0⟩ := hex
  have hind : (scanLoop matrix mask matrix.length).ind ≠ -1 := by
    intro h
    have h1 := hmax k0 hk0 hm0
    rw [hnone h] at h1
    simp only [Dbl.gt] at hgt0
    rw [hgt0] at h1
    exact absurd h1 (by decide)
  obtain ⟨i, hi, hii, hmi, hvi, hlow, hfirst⟩ := hsome hind
  have hnn : Dbl.isNaN (matrix.getD i Dbl.nan) = false := by
    rw [hvi]
    cases hv : (scanLoop matrix mask matrix.length).val
    · rw [hv] at hlow
      simp [Dbl.lt, Dbl.negInf] at hlow
    · rfl
    · rfl
  refine ⟨i, hi, hmi, ?_, fun k hk hmk => ?_, fun k hk hmk hn => ?_, fun k hk hmk => ?_,
    fun k hk hmk => ?_⟩
  · rw [mexFunction_eq_scan matrix mask hlen, if_pos hind, hii, hvi]
  · rw [hvi]; exact hmax k hk hmk
  · refine Dbl.le_of_not_lt hn hnn ?_
    rw [hvi]; exact hmax k hk hmk
  · rcases hfirst k hk hmk with h | h
    · rw [← hvi] at h
      exact (Dbl.eq_of_lt_false h).1
    · cases hd : matrix.getD k Dbl.nan
      · rfl
      · rw [hd] at h; simp [Dbl.isNaN] at h
      · rw [hd] at h; simp [Dbl.isNaN] at h
  · rw [hvi]; exact hfirst k hk hmk

/-- C6 amended, on the example of the specification: `matrix = [1,5,5,3]`,
`mask = [true,true,true,false]` gives `(5, 2)`. -/
theorem returns_first_masked_maximum_witness :
    [Dbl.ofInt 1, Dbl.ofInt 5, Dbl.ofInt 5, Dbl.ofInt 3].length
        = [true, true, true, false].length ∧
      mexFunction (.double [Dbl.ofInt 1, Dbl.ofInt 5, Dbl.ofInt 5, Dbl.ofInt 3])
        (.logical [true, true, true, false]) = .ok (Dbl.ofInt 5, 2) ∧
      ∃ i : Nat, i < [Dbl.ofInt 1, Dbl.ofInt 5, Dbl.ofInt 5, Dbl.ofInt 3].length ∧
        [true, true, true, false].getD i false = true ∧
        mexFunction (.double [Dbl.ofInt 1, Dbl.ofInt 5, Dbl.ofInt 5, Dbl.ofInt 3])
            (.logical [true, true, true, false])
          = .ok ([Dbl.ofInt 1, Dbl.ofInt 5, Dbl.ofInt 5, Dbl.ofInt 3].getD i Dbl.nan,
              (i : Int) + 1) :=
  ⟨rfl, by rfl, by
    obtain ⟨i, hi, hm, hres, _⟩ := returns_first_masked_maximum
      [Dbl.ofInt 1, Dbl.ofInt 5, Dbl.ofInt 5, Dbl.ofInt 3] [true, true, true, false] rfl
      ⟨0, by decide, by decide, by decide⟩
    exact ⟨i, hi, hm, hres⟩⟩

/-- C7: for a matrix and a mask of equal element count in which no element is masked true,
or every masked-true element equals `-Inf`, the call returns the value `-Inf` and the index
`-1`. -/
theorem returns_sentinel_without_maximum (matrix : List Dbl) (mask : List Bool)
    (hlen : matrix.length = mask.length)
    (hall : ∀ k, k < matrix.length → mask.getD k false = true →
      matrix.getD k Dbl.nan = Dbl.negInf) :
    mexFunction (.double matrix) (.logical mask) = .ok (Dbl.negInf, -1) := by
  have hscan : ∀ n, n ≤ matrix.length →
      scanLoop matrix mask n = { val := Dbl.negInf, ind := -1 } := by
    intro n
    induction n with
    | zero => intro _; rfl
    | succ n ih =>
      intro hn
      have hprev := ih (by omega)
      simp only [scanLoop, hprev]
      cases hm : mask.getD n false
      · simp
      · rw [hall n (by omega) hm]
        simp [Dbl.gt, Dbl.lt, Dbl.negInf]
  rw [mexFunction_eq_scan matrix mask hlen, hscan matrix.length (Nat.le_refl _)]
  simp

/-- C7, on `matrix = [-Inf, 3]` with only the first element masked true. -/
theorem returns_sentinel_without_maximum_witness :
    [Dbl.negInf, Dbl.ofInt 3].length = [true, false].length ∧
      (∀ k, k < [Dbl.negInf, Dbl.ofInt 3].length → [true, false].getD k false = true →
        [Dbl.negInf, Dbl.ofInt 3].getD k Dbl.nan = Dbl.negInf) ∧
      mexFunction (.double [Dbl.negInf, Dbl.ofInt 3]) (.logical [true, false])
        = .ok (Dbl.negInf, -1) :=
  ⟨rfl, by decide,
    returns_sentinel_without_maximum [Dbl.negInf, Dbl.ofInt 3] [true, false] rfl
      (by decide)⟩

end quickmax_mex

/-! ## kmatrix2: who writes which offset -/

namespace kmatrix2

theorem rowLoop_other (log : Dbl → Dbl) (A B : Nat → Dbl) (Na Nb j : Nat) (t : Nat) :
    ∀ (n : Nat) (K : Nat → Dbl),
      (∀ i, i < n → Dbl.gt (dsq A B Na Nb i j) Dbl.zero = true → offset Na i j ≠ t) →
      rowLoop log A B Na Nb j n K t = K t := by
  intro n
  induction n with
  | zero => intro K _; rfl
  | succ n ih =>
    intro K h
    simp only [rowLoop]
    split
    · rename_i hgt
      simp only [setAt]
      rw [if_neg (fun heq => h n (by omega) hgt heq.symm)]
      exact ih K (fun i hi => h i (by omega))
    · exact ih K (fun i hi => h i (by omega))

theorem rowLoop_last (log : Dbl → Dbl) (A B : Nat → Dbl) (Na Nb j : Nat) (t i0 : Nat)
    (hgt : Dbl.gt (dsq A B Na Nb i0 j) Dbl.zero = true) (hoff : offset Na i0 j = t) :
    ∀ (n : Nat) (K : Nat → Dbl), i0 < n →
      (∀ i, i0 < i → i < n → Dbl.gt (dsq A B Na Nb i j) Dbl.zero = true →
        offset Na i j ≠ t) →
      rowLoop log A B Na Nb j n K t
        = Dbl.mul (dsq A B Na Nb i0 j) (log (dsq A B Na Nb i0 j)) := by
  intro n
  induction n with
  | zero => intro K h; omega
  | succ n ih =>
    intro K hn h
    by_cases hi : i0 = n
    · subst hi
      simp only [rowLoop, hgt, if_true, setAt, hoff]
    · simp only [rowLoop]
      split
      · rename_i hgt'
        simp only [setAt]
        rw [if_neg (fun heq => h n (by omega) (by omega) hgt' heq.symm)]
        exact ih K (by omega) (fun i h1 h2 => h i h1 (by omega))
      · exact ih K (by omega) (fun i h1 h2 => h i h1 (by omega))

theorem colLoop_other (log : Dbl → Dbl) (A B : Nat → Dbl) (Na Nb : Nat) (t : Nat) :
    ∀ n : Nat,
      (∀ j, j < n → ∀ i, i < Na → Dbl.gt (dsq A B Na Nb i j) Dbl.zero = true →
        offset Na i j ≠ t) →
      colLoop log A B Na Nb n t = Dbl.zero := by
  intro n
  induction n with
  | zero => intro _; rfl
  | succ n ih =>
    intro h
    simp only [colLoop]
    rw [rowLoop_other log A B Na Nb n t Na _ (fun i hi => h n (by omega) i hi)]
    exact ih (fun j hj => h j (by omega))

theorem colLoop_last (log : Dbl → Dbl) (A B : Nat → Dbl) (Na Nb : Nat) (t i0 j0 : Nat)
    (hi0 : i0 < Na) (hgt : Dbl.gt (dsq A B Na Nb i0 j0) Dbl.zero = true)
    (hoff : offset Na i0 j0 = t)
    (hrow : ∀ i, i0 < i → i < Na → Dbl.gt (dsq A B Na Nb i j0) Dbl.zero = true →
      offset Na i j0 ≠ t) :
    ∀ n : Nat, j0 < n →
      (∀ j, j0 < j → j < n → ∀ i, i < Na → Dbl.gt (dsq A B Na Nb i j) Dbl.zero = true →
        offset Na i j ≠ t) →
      colLoop log A B Na Nb n t
        = Dbl.mul (dsq A B Na Nb i0 j0) (log (dsq A B Na Nb i0 j0)) := by
  intro n
  induction n with
  | zero => intro h; omega
  | succ n ih =>
    intro hn h
    simp only [colLoop]
    by_cases hj : j0 = n
    · subst hj
      exact rowLoop_last log A B Na Nb j0 t i0 hgt hoff Na _ hi0 hrow
    · rw [rowLoop_other log A B Na Nb n t Na _ (fun i hi => h n (by omega) (by omega) i hi)]
      exact ih (by omega) (fun j h1 h2 => h j h1 (by omega))

theorem offset_lt (Na i j : Nat) : offset Na i j < 2 ^ 32 :=
  Nat.mod_lt _ (by decide)

theorem offset_no_wrap {Na Nb i j : Nat} (hsize : Na * Nb ≤ 2 ^ 32) (hi : i < Na)
    (hj : j < Nb) : offset Na i j = i + Na * j := by
  have h1 : Na * j + Na ≤ Na * Nb := by
    calc Na * j + Na = Na * (j + 1) := by ring
      _ ≤ Na * Nb := Nat.mul_le_mul_left Na hj
  exact Nat.mod_eq_of_lt (by omega)

/-- Below the 32-bit limit the kernel does what the contract says: when both row counts fit
in 32 bits and the matrix has at most `2^32` entries, the entry `K[i,j]` is `d * log d` for
`d > 0` and the zero of the fresh matrix otherwise, `d` being the computed squared distance
between point `i` of `A` and point `j` of `B`. -/
theorem entry_when_no_wrap (log : Dbl → Dbl) (prhs0 prhs1 : MxArray)
    (hNa : prhs0.m < 2 ^ 32) (hNb : prhs1.m < 2 ^ 32) (hsize : prhs0.m * prhs1.m ≤ 2 ^ 32)
    (i j : Nat) (hi : i < prhs0.m) (hj : j < prhs1.m) :
    (mexFunction log prhs0 prhs1).m = prhs0.m ∧ (mexFunction log prhs0 prhs1).n = prhs1.m ∧
      (mexFunction log prhs0 prhs1).pr (i + prhs0.m * j)
        = kernel log (dsq prhs0.pr prhs1.pr prhs0.m prhs1.m i j) := by
  have hma : prhs0.m % 2 ^ 32 = prhs0.m := Nat.mod_eq_of_lt hNa
  have hmb : prhs1.m % 2 ^ 32 = prhs1.m := Nat.mod_eq_of_lt hNb
  simp only [mexFunction, hma, hmb, true_and]
  have hother : ∀ i' j', i' < prhs0.m → j' < prhs1.m → (i' ≠ i ∨ j' ≠ j) →
      offset prhs0.m i' j' ≠ i + prhs0.m * j := by
    intro i' j' hi' hj' hne heq
    rw [offset_no_wrap hsize hi' hj'] at heq
    have := stride_inj hi' hi heq
    omega
  by_cases hgt : Dbl.gt (dsq prhs0.pr prhs1.pr prhs0.m prhs1.m i j) Dbl.zero = true
  · rw [kernel, if_pos hgt]
    exact colLoop_last log _ _ _ _ _ i j hi hgt (offset_no_wrap hsize hi hj)
      (fun i' h1 h2 _ => hother i' j h2 hj (Or.inl (by omega))) prhs1.m hj
      (fun j' h1 h2 i' h3 _ => hother i' j' h3 h2 (Or.inr (by omega)))
  · rw [kernel, if_neg hgt]
    apply colLoop_other
    intro j' hj' i' hi' hgt' heq
    by_cases hsame : i' = i ∧ j' = j
    · obtain ⟨rfl, rfl⟩ := hsame
      exact hgt hgt'
    · exact hother i' j' hi' hj' (by omega) heq

end kmatrix2

/-! ## Properties of kmatrix2 -/

namespace kmatrix2

theorem dsq_symm (A : Nat → Dbl) (Na i j : Nat) :
    dsq A A Na Na i j = dsq A A Na Na j i := by
  simp only [dsq]
  rw [Dbl.mul_self_sub_comm (A i) (A j), Dbl.mul_self_sub_comm (A (Na + i)) (A (Na + j))]

theorem dsq_self_not_pos (A : Nat → Dbl) (Na i : Nat) :
    Dbl.gt (dsq A A Na Na i i) Dbl.zero = false := by
  simp only [dsq]
  rcases Dbl.sub_self_sq (A i) with h1 | h1 <;>
    rcases Dbl.sub_self_sq (A (Na + i)) with h2 | h2 <;> rw [h1, h2] <;> decide

/-- Below the 32-bit limit `kmatrix2(A, A)` is what C8 says: for a point set with fewer than
`2^32` rows and at most `2^32` output entries, the diagonal is zero and `K[i,j]` is the same
double as `K[j,i]`. -/
theorem symmetric_zero_diagonal_when_no_wrap (log : Dbl → Dbl) (prhs0 : MxArray)
    (hNa : prhs0.m < 2 ^ 32) (hsize : prhs0.m * prhs0.m ≤ 2 ^ 32)
    (i j : Nat) (hi : i < prhs0.m) (hj : j < prhs0.m) :
    (mexFunction log prhs0 prhs0).pr (i + prhs0.m * i) = Dbl.zero ∧
      (mexFunction log prhs0 prhs0).pr (i + prhs0.m * j)
        = (mexFunction log prhs0 prhs0).pr (j + prhs0.m * i) := by
  rw [(entry_when_no_wrap log prhs0 prhs0 hNa hNa hsize i i hi hi).2.2,
    (entry_when_no_wrap log prhs0 prhs0 hNa hNa hsize i j hi hj).2.2,
    (entry_when_no_wrap log prhs0 prhs0 hNa hNa hsize j i hj hi).2.2,
    dsq_symm prhs0.pr prhs0.m j i]
  exact ⟨by simp [kernel, dsq_self_not_pos], rfl⟩

/-- C4 fails on the code: with 65537 points in `A` and in `B` the offset `i + Na*j` of the
entry `K[65536, 65536]` exceeds `2^32 - 1`; the 32-bit offset the code computes never
reaches it, so the entry keeps the zero of the fresh matrix although the squared distance
of the two points is `4 > 0` and the contract asks for `4 * log 4`. -/
theorem entry_past_wrap_is_never_written (log : Dbl → Dbl) :
    (mexFunction log farA farB).m = 65537 ∧ (mexFunction log farA farB).n = 65537 ∧
      dsq farA.pr farB.pr 65537 65537 65536 65536 = four ∧
      Dbl.gt four Dbl.zero = true ∧
      (mexFunction log farA farB).pr (65536 + 65537 * 65536) = Dbl.zero := by
  have hm : farA.m % 2 ^ 32 = 65537 := by decide
  have hn : farB.m % 2 ^ 32 = 65537 := by decide
  refine ⟨hm, hn, by decide, by decide, ?_⟩
  simp only [mexFunction]
  apply colLoop_other
  intro j _ i _ _ heq
  have := offset_lt (farA.m % 2 ^ 32) i j
  omega

/-- C8 fails on the code: with the 65537 points of `wrapA` as both arguments, the write of
`K[1, 65535]` lands on offset `(1 + 65537 * 65535) mod 2^32 = 0`, so the diagonal entry
`K[0, 0]` ends as `4 * log 4` instead of zero. -/
theorem diagonal_entry_overwritten_after_wrap (log : Dbl → Dbl) :
    dsq wrapA.pr wrapA.pr 65537 65537 0 0 = Dbl.zero ∧
      dsq wrapA.pr wrapA.pr 65537 65537 1 65535 = four ∧
      offset 65537 1 65535 = 0 ∧
      (mexFunction log wrapA wrapA).pr (0 + 65537 * 0) = Dbl.mul four (log four) := by
  have hd : dsq wrapA.pr wrapA.pr 65537 65537 1 65535 = four := by decide
  have hm : wrapA.m % 2 ^ 32 = 65537 := by decide
  refine ⟨by decide, hd, by decide, ?_⟩
  simp only [mexFunction, hm]
  rw [← hd]
  refine colLoop_last log wrapA.pr wrapA.pr 65537 65537 _ 1 65535 (by decide)
    (by rw [hd]; decide) (by decide) (fun i h1 h2 _ heq => ?_) 65537 (by decide)
    (fun j h1 h2 i h3 _ heq => ?_)
  · simp only [offset] at heq
    omega
  · simp only [offset] at heq
    have : j = 65536 := by omega
    subst this
    omega

end kmatrix2


/-! ## interpnearest: rejected and accepted arguments -/

namespace interpnearest

/-- C11: for every radius `c <= 0` (zero, negative zero or negative) and every `P`, `C`,
`Cval`, the call fails with `interpnearest:invalidInput`; a failed call carries no output,
so no row and no index is produced. -/
theorem nonpositive_radius_is_rejected (idx0 nlhs : Nat) (p0 p1 p2 p3 : MxArray)
    (hc : Dbl.le (p3.pr 0) Dbl.zero = true) :
    mexFunction idx0 nlhs [p0, p1, p2, p3] = .error "interpnearest:invalidInput" := by
  rw [mexFunction_eq]
  apply if_neg
  intro h
  rw [hc] at h
  exact absurd h.2.2.2.2.2 (by decide)

/-- C11, on the radius `0` with the points, centers and values of the specification's
example. -/
theorem nonpositive_radius_is_rejected_witness :
    Dbl.le ((scalar Dbl.zero).pr 0) Dbl.zero = true ∧
      mexFunction 0 2 [exOrigin, exCenters, exValues, scalar Dbl.zero]
        = .error "interpnearest:invalidInput" :=
  ⟨by decide,
    nonpositive_radius_is_rejected 0 2 exOrigin exCenters exValues (scalar Dbl.zero)
      (by decide)⟩

/-- C13: whenever the column count of the centers differs from the column count of the
points, or the row count of the values differs from the row count of the centers, the call
fails with `interpnearest:invalidInput`, whatever the radius is; a failed call has scanned
nothing and carries no output. -/
theorem shape_mismatch_is_rejected (idx0 nlhs : Nat) (p0 p1 p2 p3 : MxArray)
    (hshape : p1.n ≠ p0.n ∨ p2.m ≠ p1.m) :
    mexFunction idx0 nlhs [p0, p1, p2, p3] = .error "interpnearest:invalidInput" := by
  rw [mexFunction_eq]
  apply if_neg
  intro h
  rcases hshape with h1 | h1
  · exact h1 h.2.2.1.2.2
  · exact h1 h.2.2.2.1.2.2

/-- C13, on two-dimensional points with one-dimensional centers. -/
theorem shape_mismatch_is_rejected_witness :
    (rimCenter.n ≠ exOrigin.n ∨ rimValue.m ≠ rimCenter.m) ∧
      mexFunction 0 2 [exOrigin, rimCenter, rimValue, scalar Dbl.one]
        = .error "interpnearest:invalidInput" :=
  ⟨by decide,
    shape_mismatch_is_rejected 0 2 exOrigin rimCenter rimValue (scalar Dbl.one)
      (by decide)⟩

/-- C12 as stated fails: with the well-shaped points, centers and values of the
specification's example, the radius `+Inf` is accepted and the query point `(0,0)` is
matched with center 1, and the radius NaN is accepted and the query point is unmatched. -/
theorem nonfinite_radius_is_accepted :
    (mexFunction 0 2 [exOrigin, exCenters, exValues, scalar (Dbl.inf false)]
        = .ok (result 0 2 exOrigin exCenters exValues (scalar (Dbl.inf false))) ∧
      (result 0 2 exOrigin exCenters exValues (scalar (Dbl.inf false))).Pidx.map
        (fun f => f 0) = some 1) ∧
    (mexFunction 0 2 [exOrigin, exCenters, exValues, scalar Dbl.nan]
        = .ok (result 0 2 exOrigin exCenters exValues (scalar Dbl.nan)) ∧
      (result 0 2 exOrigin exCenters exValues (scalar Dbl.nan)).Pidx.map
        (fun f => f 0) = some 0) :=
  ⟨⟨by rfl, by decide⟩, ⟨by rfl, by decide⟩⟩

/-- C12, amended: the radius is not checked for finiteness.  With well-shaped inputs a
radius that is `+Inf` or NaN is accepted and the call returns its output; with `+Inf` the
bound `c*c` is `+Inf`, with NaN the bound is NaN and every query point is unmatched (NaN
row, index 0). -/
theorem nonfinite_radius_returns_output (idx0 nlhs : Nat) (p0 p1 p2 p3 : MxArray)
    (hnlhs : nlhs = 1 ∨ nlhs = 2) (h0 : p0.isDouble = true ∧ p0.ndim = 2)
    (h1 : p1.isDouble = true ∧ p1.ndim = 2 ∧ p1.n = p0.n)
    (h2 : p2.isDouble = true ∧ p2.ndim = 2 ∧ p2.m = p1.m)
    (h3 : p3.isDouble = true ∧ p3.numel = 1)
    (hc : p3.pr 0 = Dbl.inf false ∨ p3.pr 0 = Dbl.nan) :
    mexFunction idx0 nlhs [p0, p1, p2, p3] = .ok (result idx0 nlhs p0 p1 p2 p3) ∧
      (p3.pr 0 = Dbl.inf false → csq p3 = Dbl.inf false) ∧
      (p3.pr 0 = Dbl.nan → ∀ ip, ip < p0.m →
        (∀ k, k < p2.n → (result idx0 nlhs p0 p1 p2 p3).Pval (ip + p0.m * k) = Dbl.nan) ∧
        (∀ pidx, (result idx0 nlhs p0 p1 p2 p3).Pidx = some pidx → pidx ip = 0)) := by
  have hle : Dbl.le (p3.pr 0) Dbl.zero = false := by
    rcases hc with h | h <;> rw [h] <;> rfl
  have hok : mexFunction idx0 nlhs [p0, p1, p2, p3] = .ok (result idx0 nlhs p0 p1 p2 p3) := by
    rw [mexFunction_eq]
    exact if_pos ⟨hnlhs, h0, h1, h2, h3, hle⟩
  refine ⟨hok, fun h => by simp [csq, h, Dbl.mul], fun h ip hip => ?_⟩
  obtain ⟨st, ⟨_, _, hyes⟩, hrow⟩ := row_cases hok ip hip
  rcases hrow with ⟨htf, _, _⟩ | ⟨_, hval, hi⟩
  · obtain ⟨_, _, hlt, _⟩ := hyes htf
    have hnan : csq p3 = Dbl.nan := by simp [csq, h, Dbl.mul]
    rw [hnan] at hlt
    cases hm : st.mindsq <;> rw [hm] at hlt <;> simp [Dbl.lt] at hlt
  · exact ⟨hval, hi⟩

/-- C12 amended, on the radius NaN with the points, centers and values of the
specification's example. -/
theorem nonfinite_radius_returns_output_witness :
    mexFunction 0 2 [exOrigin, exCenters, exValues, scalar Dbl.nan]
        = .ok (result 0 2 exOrigin exCenters exValues (scalar Dbl.nan)) ∧
      (result 0 2 exOrigin exCenters exValues (scalar Dbl.nan)).Pval 0 = Dbl.nan :=
  have h := nonfinite_radius_returns_output 0 2 exOrigin exCenters exValues
    (scalar Dbl.nan) (Or.inr rfl) ⟨rfl, rfl⟩ ⟨rfl, rfl, rfl⟩ ⟨rfl, rfl, rfl⟩ ⟨rfl, rfl⟩
    (Or.inr rfl)
  ⟨h.1, (h.2.2 rfl 0 (by decide)).1 0 (by decide)⟩

end interpnearest

/-! ## quickmax: argument check -/

namespace quickmax_mex

/-- C14: for a matrix and a mask whose element counts differ the call fails with
`quickmax:inputerror` and returns neither value nor index; for equal element counts it does
not fail and returns what the scan leaves in `val` and `ind`. -/
theorem count_mismatch_is_rejected (matrix : List Dbl) (mask : List Bool) :
    mexFunction (.double matrix) (.logical mask) =
      if matrix.length ≠ mask.length then .error "quickmax:inputerror"
      else .ok ((scanLoop matrix mask matrix.length).val,
        if (scanLoop matrix mask matrix.length).ind ≠ -1
        then (scanLoop matrix mask matrix.length).ind + 1
        else (scanLoop matrix mask matrix.length).ind) := by
  by_cases h : matrix.length = mask.length
  · have hn : ¬ (matrix.length ≠ mask.length) := fun hne => hne h
    rw [mexFunction_eq_scan matrix mask h]
    exact (if_neg hn).symm
  · simp [mexFunction, h]

end quickmax_mex

/-! ## kmatrix2: the header against the code -/

namespace kmatrix2

/-- C15 fails on the code: for `A = [[0,0],[2,0]]` and `B = [[0,0]]` the squared distance
between point 1 of `A` and point 0 of `B` is 4, which the header announces as `K[1,0]`, but
the entry the code stores is `4 * log 4`. -/
theorem entry_is_kernel_not_squared_distance (log : Dbl → Dbl) :
    dsq exA.pr exB.pr 2 1 1 0 = four ∧
      (mexFunction log exA exB).pr (1 + 2 * 0) = Dbl.mul four (log four) := by
  have hd : dsq exA.pr exB.pr 2 1 1 0 = four := by decide
  refine ⟨hd, ?_⟩
  have h := (entry_when_no_wrap log exA exB (by decide) (by decide) (by decide) 1 0
    (by decide) (by decide)).2.2
  have hA : exA.m = 2 := rfl
  have hB : exB.m = 1 := rfl
  rw [hA, hB, hd] at h
  rw [h]
  simp [kernel, show Dbl.gt four Dbl.zero = true by decide]

end kmatrix2

/-! ## interpnearest: the short-circuit -/

namespace interpnearest

theorem centerLoopAll_fixed (P C : Nat → Dbl) (Np Nc Nd ip : Nat) :
    ∀ (rem ic : Nat) (st : Locals), Dbl.eq st.mindsq Dbl.zero = true →
      centerLoopAll P C Np Nc Nd ip rem ic st = st := by
  intro rem
  induction rem with
  | zero => intro ic st _; rfl
  | succ rem ih =>
    intro ic st hz
    have hlt : Dbl.lt (dsqLoop P C Np Nc ip ic Nd) st.mindsq = false :=
      Dbl.not_lt_of_eq_zero (signClear_dsqLoop P C Np Nc ip ic Nd) hz
    simp only [centerLoopAll, hlt, Bool.false_eq_true, if_false]
    exact ih (ic + 1) st hz

theorem centerLoop_eq_all (P C : Nat → Dbl) (Np Nc Nd ip : Nat) :
    ∀ (rem ic : Nat) (st : Locals),
      centerLoop P C Np Nc Nd ip rem ic st = centerLoopAll P C Np Nc Nd ip rem ic st := by
  intro rem
  induction rem with
  | zero => intro ic st; rfl
  | succ rem ih =>
    intro ic st
    simp only [centerLoop, centerLoopAll]
    by_cases hlt : Dbl.lt (dsqLoop P C Np Nc ip ic Nd) st.mindsq = true
    · simp only [hlt, if_true]
      by_cases hz : Dbl.eq (dsqLoop P C Np Nc ip ic Nd) Dbl.zero = true
      · simp only [hz, if_true]
        exact (centerLoopAll_fixed P C Np Nc Nd ip rem (ic + 1) _ hz).symm
      · simp only [hz, Bool.false_eq_true, if_false]
        exact ih (ic + 1) _
    · simp only [hlt, Bool.false_eq_true, if_false]
      exact ih (ic + 1) st

theorem pointLoop_eq_all (flagidx : Bool) (P C Cval : Nat → Dbl) (Np Nc Nd Nv : Nat)
    (csq : Dbl) (idx0 : Nat) :
    ∀ n, pointLoop flagidx P C Cval Np Nc Nd Nv csq idx0 n
      = pointLoopAll flagidx P C Cval Np Nc Nd Nv csq idx0 n := by
  intro n
  induction n with
  | zero => rfl
  | succ n ih =>
    simp only [pointLoop, pointLoopAll, pointBody, pointBodyAll, ih, centerLoop_eq_all]

/-- C16: on every valid input the outputs of the call, whose center scan stops at the first
accepted center at squared distance zero, are the outputs of the scan that always visits
every center: same value rows, same indices. -/
theorem short_circuit_keeps_result (idx0 nlhs : Nat) (p0 p1 p2 p3 : MxArray) (out : Output)
    (hok : mexFunction idx0 nlhs [p0, p1, p2, p3] = .ok out) :
    out = resultAll idx0 nlhs p0 p1 p2 p3 := by
  obtain ⟨_, _, _, _, hout⟩ := mexFunction_ok hok
  rw [hout]
  simp only [result, resultAll, pointLoop_eq_all]

/-- C16, on the example of the specification: the query point `(0,0)` meets center `(0,0)`
at distance zero first, and the scan stops before center `(10,10)`. -/
theorem short_circuit_keeps_result_witness :
    mexFunction 0 2 [exOrigin, exCenters, exValues, scalar Dbl.one]
        = .ok (result 0 2 exOrigin exCenters exValues (scalar Dbl.one)) ∧
      Dbl.eq (dsq exOrigin exCenters 0 0) Dbl.zero = true ∧
      result 0 2 exOrigin exCenters exValues (scalar Dbl.one)
        = resultAll 0 2 exOrigin exCenters exValues (scalar Dbl.one) :=
  ⟨by rfl, by decide,
    short_circuit_keeps_result 0 2 exOrigin exCenters exValues (scalar Dbl.one) _ (by rfl)⟩

end interpnearest

/-! ## interpnearest: query points are answered one by one -/

namespace interpnearest

theorem vcat_pr_top (pa pb : MxArray) (r k : Nat) (hr : r < pa.m) :
    (vcat pa pb).pr (r + (pa.m + pb.m) * k) = pa.pr (r + pa.m * k) := by
  have hlt : r < pa.m + pb.m := by omega
  simp only [vcat, Nat.add_mul_mod_self_left, Nat.mod_eq_of_lt hlt, hr, if_true,
    Nat.add_mul_div_left r k (by omega : 0 < pa.m + pb.m), Nat.div_eq_of_lt hlt, Nat.zero_add]

theorem vcat_pr_bottom (pa pb : MxArray) (r k : Nat) (hr : r < pb.m) :
    (vcat pa pb).pr (pa.m + r + (pa.m + pb.m) * k) = pb.pr (r + pb.m * k) := by
  have hlt : pa.m + r < pa.m + pb.m := by omega
  have hge : ¬ (pa.m + r < pa.m) := by omega
  simp only [vcat, Nat.add_mul_mod_self_left, Nat.mod_eq_of_lt hlt, hge, if_false,
    Nat.add_mul_div_left (pa.m + r) k (by omega : 0 < pa.m + pb.m), Nat.div_eq_of_lt hlt,
    Nat.zero_add, Nat.add_sub_cancel_left]

theorem dsqLoop_congr (P Q C : Nat → Dbl) (Np Nq Nc ip iq ic : Nat) :
    ∀ n, (∀ k, k < n → P (ip + Np * k) = Q (iq + Nq * k)) →
      dsqLoop P C Np Nc ip ic n = dsqLoop Q C Nq Nc iq ic n := by
  intro n
  induction n with
  | zero => intro _; rfl
  | succ n ih =>
    intro h
    simp only [dsqLoop]
    rw [ih (fun k hk => h k (by omega)), h n (by omega)]

theorem scanned_unique {d : Nat → Dbl} {csq : Dbl} {n : Nat} {st st' : Locals}
    (h : Scanned d csq n st) (h' : Scanned d csq n st') :
    st.tf = st'.tf ∧ (st.tf = true → st.idx = st'.idx) := by
  obtain ⟨hmin, hno, hyes⟩ := h
  obtain ⟨hmin', hno', hyes'⟩ := h'
  cases htf : st.tf <;> cases htf' : st'.tf
  · exact ⟨rfl, fun h => absurd h (by simp)⟩
  · obtain ⟨hlt, hm, hc, _⟩ := hyes' htf'
    have h1 := hmin st'.idx hlt
    rw [hno htf, ← hm, hc] at h1
    exact absurd h1 (by decide)
  · obtain ⟨hlt, hm, hc, _⟩ := hyes htf
    have h1 := hmin' st.idx hlt
    rw [hno' htf', ← hm, hc] at h1
    exact absurd h1 (by decide)
  · refine ⟨rfl, fun _ => ?_⟩
    obtain ⟨hlt, hm, hc, hfirst⟩ := hyes htf
    obtain ⟨hlt', hm', hc', hfirst'⟩ := hyes' htf'
    have hnn : ∀ {s : Locals}, Dbl.lt s.mindsq csq = true → Dbl.isNaN s.mindsq = false := by
      intro s hs
      cases hq : s.mindsq
      · rw [hq] at hs; simp [Dbl.lt] at hs
      · rfl
      · rfl
    rcases Nat.lt_trichotomy st.idx st'.idx with hlt3 | heq | hgt3
    · rcases hfirst' st.idx hlt3 with h1 | h1
      · have h2 := hmin st'.idx hlt'
        rw [hm, hm'] at *
        rw [h1] at h2
        exact absurd h2 (by decide)
      · rw [← hm, hnn hc] at h1
        exact absurd h1 (by decide)
    · exact heq
    · rcases hfirst st'.idx hgt3 with h1 | h1
      · have h2 := hmin' st.idx hlt
        rw [hm, hm'] at *
        rw [h1] at h2
        exact absurd h2 (by decide)
      · rw [← hm', hnn hc'] at h1
        exact absurd h1 (by decide)

/-- The row that a successful call writes for query point `ip` is fixed by the squared
distances of that point and the bound `c*c`: two successful calls with the same centers
values and radius, whose query points `ip` and `iq` have the same squared distances to
every center, write the same value row and the same index. -/
theorem rows_agree {ia ib nlhs : Nat} {pa pb p1 p2 p3 : MxArray} {outa outb : Output}
    (ha : mexFunction ia nlhs [pa, p1, p2, p3] = .ok outa)
    (hb : mexFunction ib nlhs [pb, p1, p2, p3] = .ok outb)
    (ip iq : Nat) (hip : ip < pa.m) (hiq : iq < pb.m)
    (hd : ∀ j, dsq pa p1 ip j = dsq pb p1 iq j) :
    (∀ k, k < p2.n → outa.Pval (ip + pa.m * k) = outb.Pval (iq + pb.m * k)) ∧
      (∀ fa fb, outa.Pidx = some fa → outb.Pidx = some fb → fa ip = fb iq) := by
  obtain ⟨st, hst, hrow⟩ := row_cases ha ip hip
  obtain ⟨st', hst', hrow'⟩ := row_cases hb iq hiq
  have hfun : (fun j => dsq pa p1 ip j) = (fun j => dsq pb p1 iq j) := funext hd
  rw [hfun] at hst
  obtain ⟨htf, hidx⟩ := scanned_unique hst hst'
  rcases hrow with ⟨h1, hv, hi⟩ | ⟨h1, hv, hi⟩ <;>
    rcases hrow' with ⟨h1', hv', hi'⟩ | ⟨h1', hv', hi'⟩
  · refine ⟨fun k hk => ?_, fun fa fb hfa hfb => ?_⟩
    · rw [hv k hk, hv' k hk, hidx h1]
    · rw [hi fa hfa, hi' fb hfb, hidx h1]
  · rw [h1, h1'] at htf; exact absurd htf (by decide)
  · rw [h1, h1'] at htf; exact absurd htf (by decide)
  · refine ⟨fun k hk => ?_, fun fa fb hfa hfb => ?_⟩
    · rw [hv k hk, hv' k hk]
    · rw [hi fa hfa, hi' fb hfb]

/-- C17: query points are answered independently.  When the calls on the point sets `pa`
and `pb` succeed, with the same centers, values and radius, the call on the point set that
stacks the rows of `pa` over the rows of `pb` succeeds too, and its output is the output
for `pa` stacked over the output for `pb`, value rows and indices alike. -/
theorem stacked_queries_give_stacked_outputs (ia ib i nlhs : Nat)
    (pa pb p1 p2 p3 : MxArray) (outa outb : Output)
    (ha : mexFunction ia nlhs [pa, p1, p2, p3] = .ok outa)
    (hb : mexFunction ib nlhs [pb, p1, p2, p3] = .ok outb) :
    ∃ out, mexFunction i nlhs [vcat pa pb, p1, p2, p3] = .ok out ∧
      (∀ r k, r < pa.m → k < p2.n →
        out.Pval (r + (pa.m + pb.m) * k) = outa.Pval (r + pa.m * k)) ∧
      (∀ r k, r < pb.m → k < p2.n →
        out.Pval (pa.m + r + (pa.m + pb.m) * k) = outb.Pval (r + pb.m * k)) ∧
      (nlhs = 2 → ∃ f fa fb, out.Pidx = some f ∧ outa.Pidx = some fa ∧
        outb.Pidx = some fb ∧ (∀ r, r < pa.m → f r = fa r) ∧
        (∀ r, r < pb.m → f (pa.m + r) = fb r)) := by
  have hva := (mexFunction_isOk_iff ia nlhs pa p1 p2 p3).mp ⟨outa, ha⟩
  have hvb := (mexFunction_isOk_iff ib nlhs pb p1 p2 p3).mp ⟨outb, hb⟩
  have hn : pb.n = pa.n := by rw [← hva.2.2.1.2.2, ← hvb.2.2.1.2.2]
  have hv : ∃ out, mexFunction i nlhs [vcat pa pb, p1, p2, p3] = .ok out := by
    rw [mexFunction_isOk_iff]
    refine ⟨hva.1, ⟨?_, rfl⟩, ⟨hva.2.2.1.1, hva.2.2.1.2.1, hva.2.2.1.2.2⟩, hva.2.2.2.1,
      hva.2.2.2.2⟩
    simp [vcat, hva.2.1.1, hvb.2.1.1]
  obtain ⟨out, hout⟩ := hv
  have htop : ∀ r, r < pa.m → ∀ j, dsq (vcat pa pb) p1 r j = dsq pa p1 r j := by
    intro r hr j
    exact dsqLoop_congr _ _ _ _ _ _ _ _ _ _ (fun k _ => vcat_pr_top pa pb r k hr)
  have hbot : ∀ r, r < pb.m → ∀ j, dsq (vcat pa pb) p1 (pa.m + r) j = dsq pb p1 r j := by
    intro r hr j
    have h := dsqLoop_congr (vcat pa pb).pr pb.pr p1.pr (pa.m + pb.m) pb.m p1.m (pa.m + r) r
      j pa.n (fun k _ => vcat_pr_bottom pa pb r k hr)
    simp only [dsq, hn]
    exact h
  have hm : (vcat pa pb).m = pa.m + pb.m := rfl
  refine ⟨out, hout, fun r k hr hk => ?_, fun r k hr hk => ?_, fun h2 => ?_⟩
  · have h := (rows_agree hout ha r r (by rw [hm]; omega) hr (htop r hr)).1 k hk
    rwa [hm] at h
  · have h := (rows_agree hout hb (pa.m + r) r (by rw [hm]; omega) hr (hbot r hr)).1 k hk
    rwa [hm] at h
  · obtain ⟨_, _, _, _, ho⟩ := mexFunction_ok hout
    obtain ⟨_, _, _, _, hoa⟩ := mexFunction_ok ha
    obtain ⟨_, _, _, _, hob⟩ := mexFunction_ok hb
    have hd : decide (nlhs = 2) = true := by simpa using h2
    have hf : ∃ f, out.Pidx = some f := by rw [ho]; simp [result, hd]
    have hfa : ∃ f, outa.Pidx = some f := by rw [hoa]; simp [result, hd]
    have hfb : ∃ f, outb.Pidx = some f := by rw [hob]; simp [result, hd]
    obtain ⟨f, hf⟩ := hf
    obtain ⟨fa, hfa⟩ := hfa
    obtain ⟨fb, hfb⟩ := hfb
    refine ⟨f, fa, fb, hf, hfa, hfb, fun r hr => ?_, fun r hr => ?_⟩
    · exact (rows_agree hout ha r r (by rw [hm]; omega) hr (htop r hr)).2 f fa hf hfa
    · exact (rows_agree hout hb (pa.m + r) r (by rw [hm]; omega) hr (hbot r hr)).2 f fb
        hf hfb

/-- C17, on the query points `(0,0)` and `(5,5)` of the specification's examples, stacked
into one call. -/
theorem stacked_queries_give_stacked_outputs_witness :
    mexFunction 0 2 [exOrigin, exCenters, exValues, scalar Dbl.one]
        = .ok (result 0 2 exOrigin exCenters exValues (scalar Dbl.one)) ∧
      mexFunction 0 2 [exMiddle, exCenters, exValues, scalar Dbl.one]
        = .ok (result 0 2 exMiddle exCenters exValues (scalar Dbl.one)) ∧
      ∃ out, mexFunction 0 2 [exBoth, exCenters, exValues, scalar Dbl.one] = .ok out ∧
        (∀ r k, r < exOrigin.m → k < exValues.n →
          out.Pval (r + (exOrigin.m + exMiddle.m) * k)
            = (result 0 2 exOrigin exCenters exValues (scalar Dbl.one)).Pval
                (r + exOrigin.m * k)) ∧
        (∀ r k, r < exMiddle.m → k < exValues.n →
          out.Pval (exOrigin.m + r + (exOrigin.m + exMiddle.m) * k)
            = (result 0 2 exMiddle exCenters exValues (scalar Dbl.one)).Pval
                (r + exMiddle.m * k)) :=
  ⟨by rfl, by rfl, by
    obtain ⟨out, h1, h2, h3, _⟩ := stacked_queries_give_stacked_outputs 0 0 0 2 exOrigin
      exMiddle exCenters exValues (scalar Dbl.one) _ _ (by rfl) (by rfl)
    exact ⟨out, h1, h2, h3⟩⟩

end interpnearest

/-! ## quickmax: scanning a buffer in two parts -/

namespace quickmax_mex

theorem scanLoop_val_not_nan (matrix : List Dbl) (mask : List Bool) (n : Nat) :
    Dbl.isNaN (scanLoop matrix mask n).val = false := by
  obtain ⟨_, hnone, hsome⟩ := scanLoop_best matrix mask n
  by_cases h : (scanLoop matrix mask n).ind = -1
  · rw [hnone h]; rfl
  · obtain ⟨_, _, _, _, _, hlow, _⟩ := hsome h
    cases hv : (scanLoop matrix mask n).val
    · rw [hv] at hlow
      simp [Dbl.lt, Dbl.negInf] at hlow
    · rfl
    · rfl

theorem scanLoop_append_left (m1 m2 : List Dbl) (k1 k2 : List Bool)
    (hlen : m1.length = k1.length) :
    ∀ n, n ≤ m1.length → scanLoop (m1 ++ m2) (k1 ++ k2) n = scanLoop m1 k1 n := by
  intro n
  induction n with
  | zero => intro _; rfl
  | succ n ih =>
    intro hn
    simp only [scanLoop]
    rw [ih (by omega), List.getD_append m1 m2 Dbl.nan n (by omega),
      List.getD_append k1 k2 false n (by omega)]

theorem lt_negInf (x : Dbl) : Dbl.lt x Dbl.negInf = false := by
  cases x <;> simp [Dbl.lt, Dbl.negInf]

theorem scanLoop_append_right (m1 m2 : List Dbl) (k1 k2 : List Bool)
    (hlen : m1.length = k1.length) :
    ∀ j,
      (Dbl.lt (scanLoop m1 k1 m1.length).val (scanLoop m2 k2 j).val = true →
        scanLoop (m1 ++ m2) (k1 ++ k2) (m1.length + j)
          = { val := (scanLoop m2 k2 j).val,
              ind := (scanLoop m2 k2 j).ind + (m1.length : Int) }) ∧
      (Dbl.lt (scanLoop m1 k1 m1.length).val (scanLoop m2 k2 j).val = false →
        scanLoop (m1 ++ m2) (k1 ++ k2) (m1.length + j) = scanLoop m1 k1 m1.length) := by
  intro j
  induction j with
  | zero =>
    refine ⟨fun h => ?_, fun _ => scanLoop_append_left m1 m2 k1 k2 hlen _ (Nat.le_refl _)⟩
    have h0 : (scanLoop m2 k2 0).val = Dbl.negInf := rfl
    rw [h0, lt_negInf] at h
    exact absurd h (by decide)
  | succ j ih =>
    obtain ⟨ihT, ihF⟩ := ih
    have hx : (m1 ++ m2).getD (m1.length + j) Dbl.nan = m2.getD j Dbl.nan := by
      rw [List.getD_append_right m1 m2 Dbl.nan _ (by omega)]
      congr 1
      omega
    have hk : (k1 ++ k2).getD (m1.length + j) false = k2.getD j false := by
      rw [List.getD_append_right k1 k2 false _ (by omega)]
      congr 1
      omega
    have hstepB : scanLoop (m1 ++ m2) (k1 ++ k2) (m1.length + (j + 1))
        = if (k2.getD j false &&
              Dbl.gt (m2.getD j Dbl.nan)
                (scanLoop (m1 ++ m2) (k1 ++ k2) (m1.length + j)).val) = true
          then { val := m2.getD j Dbl.nan, ind := ((m1.length + j : Nat) : Int) }
          else scanLoop (m1 ++ m2) (k1 ++ k2) (m1.length + j) := by
      rw [← Nat.add_assoc]
      simp only [scanLoop, hx, hk]
    have hstepS : scanLoop m2 k2 (j + 1)
        = if (k2.getD j false && Dbl.gt (m2.getD j Dbl.nan) (scanLoop m2 k2 j).val) = true
          then { val := m2.getD j Dbl.nan, ind := (j : Int) }
          else scanLoop m2 k2 j := by
      simp only [scanLoop]
    have hSnn := scanLoop_val_not_nan m2 k2 j
    rw [hstepB, hstepS]
    cases hmask : k2.getD j false
    · simp only [Bool.false_and, Bool.false_eq_true, if_false]
      exact ⟨ihT, ihF⟩
    · simp only [Bool.true_and, Dbl.gt]
      cases hA : Dbl.lt (scanLoop m1 k1 m1.length).val (scanLoop m2 k2 j).val
      · rw [ihF hA]
        cases hxA : Dbl.lt (scanLoop m1 k1 m1.length).val (m2.getD j Dbl.nan)
        · simp only [Bool.false_eq_true, if_false]
          refine ⟨fun h => ?_, fun _ => trivial⟩
          split at h
          · rw [hxA] at h; exact absurd h (by decide)
          · rw [hA] at h; exact absurd h (by decide)
        · have hxS : Dbl.lt (scanLoop m2 k2 j).val (m2.getD j Dbl.nan) = true :=
            Dbl.lt_of_not_gt_of_lt hA hxA hSnn
          simp only [hxS, if_true]
          refine ⟨fun _ => ?_, fun h => ?_⟩
          · simp only [Best.mk.injEq, true_and]
            push_cast
            omega
          · rw [hxA] at h; exact absurd h (by decide)
      · rw [ihT hA]
        simp only
        cases hxS : Dbl.lt (scanLoop m2 k2 j).val (m2.getD j Dbl.nan)
        · simp only [Bool.false_eq_true, if_false]
          exact ⟨fun _ => trivial, fun h => by rw [hA] at h; exact absurd h (by decide)⟩
        · simp only [if_true]
          refine ⟨fun _ => ?_, fun h => ?_⟩
          · simp only [Best.mk.injEq, true_and]
            push_cast
            omega
          · rw [Dbl.lt_trans hA hxS] at h; exact absurd h (by decide)

/-- C18: for two valid pairs with results `(v1, i1)` and `(v2, i2)`, the call on the
concatenated matrix and mask returns `(v2, i2 + n1)` when `v2 > v1` and `(v1, i1)`
otherwise, `n1` being the element count of the first pair. -/
theorem split_scan_reduces_in_order (m1 m2 : List Dbl) (k1 k2 : List Bool)
    (v1 v2 : Dbl) (i1 i2 : Int)
    (h1 : mexFunction (.double m1) (.logical k1) = .ok (v1, i1))
    (h2 : mexFunction (.double m2) (.logical k2) = .ok (v2, i2)) :
    mexFunction (.double (m1 ++ m2)) (.logical (k1 ++ k2))
      = .ok (if Dbl.gt v2 v1 = true then (v2, i2 + (m1.length : Int)) else (v1, i1)) := by
  have hl1 : m1.length = k1.length := by
    by_contra hne
    simp [mexFunction, hne] at h1
  have hl2 : m2.length = k2.length := by
    by_contra hne
    simp [mexFunction, hne] at h2
  rw [mexFunction_eq_scan m1 k1 hl1] at h1
  rw [mexFunction_eq_scan m2 k2 hl2] at h2
  simp only [Except.ok.injEq, Prod.mk.injEq] at h1 h2
  obtain ⟨hv1, hi1⟩ := h1
  obtain ⟨hv2, hi2⟩ := h2
  have hlen : (m1 ++ m2).length = (k1 ++ k2).length := by simp [hl1, hl2]
  rw [mexFunction_eq_scan _ _ hlen, List.length_append]
  obtain ⟨hT, hF⟩ := scanLoop_append_right m1 m2 k1 k2 hl1 m2.length
  obtain ⟨_, hnone2, hsome2⟩ := scanLoop_best m2 k2 m2.length
  simp only [Dbl.gt, ← hv1, ← hv2]
  cases hlt : Dbl.lt (scanLoop m1 k1 m1.length).val (scanLoop m2 k2 m2.length).val
  · rw [hF hlt]
    simp only [Bool.false_eq_true, if_false, hi1]
  · rw [hT hlt]
    have hind : (scanLoop m2 k2 m2.length).ind ≠ -1 := by
      intro h
      rw [hnone2 h, lt_negInf] at hlt
      exact absurd hlt (by decide)
    obtain ⟨i, _, hii, _⟩ := hsome2 hind
    have hi2' : i2 = (i : Int) + 1 := by
      rw [← hi2, if_pos hind, hii]
    simp only [if_true, hii, hi2']
    have hne : (i : Int) + (m1.length : Int) ≠ -1 := by omega
    rw [if_pos hne]
    congr 2
    omega

/-- C18, on `[1, 5]` and `[5, 3]` with masks `[true, true]` and `[true, false]`: the two
parts give `(5, 2)` and `(5, 1)`, the whole gives `(5, 2)`. -/
theorem split_scan_reduces_in_order_witness :
    mexFunction (.double [Dbl.ofInt 1, Dbl.ofInt 5]) (.logical [true, true])
        = .ok (Dbl.ofInt 5, 2) ∧
      mexFunction (.double [Dbl.ofInt 5, Dbl.ofInt 3]) (.logical [true, false])
        = .ok (Dbl.ofInt 5, 1) ∧
      mexFunction (.double ([Dbl.ofInt 1, Dbl.ofInt 5] ++ [Dbl.ofInt 5, Dbl.ofInt 3]))
          (.logical ([true, true] ++ [true, false]))
        = .ok (if Dbl.gt (Dbl.ofInt 5) (Dbl.ofInt 5) = true
            then (Dbl.ofInt 5, 1 + (([Dbl.ofInt 1, Dbl.ofInt 5].length : Nat) : Int))
            else (Dbl.ofInt 5, 2)) :=
  ⟨by rfl, by rfl,
    split_scan_reduces_in_order [Dbl.ofInt 1, Dbl.ofInt 5] [Dbl.ofInt 5, Dbl.ofInt 3]
      [true, true] [true, false] (Dbl.ofInt 5) (Dbl.ofInt 5) 2 1 (by rfl) (by rfl)⟩

end quickmax_mex

/-! ## quickfind: when the call fails -/

namespace quickfind_mex

theorem searchLoop_error_reached (tf : List Bool) (Ntf : Nat) (idx : List Nat) :
    ∀ e, searchLoop tf Ntf idx = .error e →
      ∃ (k x : Nat), idx[k]? = some x ∧ (x < 1 ∨ Ntf < x) ∧
        ∀ (j y : Nat), j < k → idx[j]? = some y →
          (1 ≤ y ∧ y ≤ Ntf) ∧ tf.getD (y - 1) false = false := by
  induction idx with
  | nil => intro e h; simp [searchLoop] at h
  | cons i rest ih =>
    intro e h
    by_cases hbad : i < 1 ∨ Ntf < i
    · exact ⟨0, i, by simp, hbad, fun j y hj _ => absurd hj (Nat.not_lt_zero j)⟩
    · simp only [searchLoop, if_neg hbad] at h
      cases htf : tf.getD (i - 1) false
      · simp only [htf, Bool.false_eq_true, if_false] at h
        obtain ⟨k, x, hk, hx, hbefore⟩ := ih e h
        refine ⟨k + 1, x, by simpa using hk, hx, fun j y hj hy => ?_⟩
        cases j with
        | zero =>
          have hiy : i = y := by simpa using hy
          subst hiy
          exact ⟨by omega, htf⟩
        | succ j => exact hbefore j y (by omega) (by simpa using hy)
      · rw [htf] at h
        simp only [if_true] at h
        exact absurd h (by simp)

/-- C19: the call raises `quickfind:indexerror` if and only if some entry of `idx` outside
`[1, N]` is reached, that is all entries before it are in range and have `tf` false;
otherwise it returns normally; and once a matching entry is reached the result is that
entry whatever follows it in `idx`, in or out of range. -/
theorem fails_iff_bad_index_reached_first (tf : List Bool) (idx : List Nat) :
    (mexFunction (.logical tf) (.uint32 idx) = .error "quickfind:indexerror" ↔
        ∃ (k x : Nat), idx[k]? = some x ∧ (x < 1 ∨ tf.length < x) ∧
          ∀ (j y : Nat), j < k → idx[j]? = some y →
            (1 ≤ y ∧ y ≤ tf.length) ∧ tf.getD (y - 1) false = false) ∧
      ((¬ ∃ (k x : Nat), idx[k]? = some x ∧ (x < 1 ∨ tf.length < x) ∧
          ∀ (j y : Nat), j < k → idx[j]? = some y →
            (1 ≤ y ∧ y ≤ tf.length) ∧ tf.getD (y - 1) false = false) →
        ∃ r, mexFunction (.logical tf) (.uint32 idx) = .ok r) ∧
      (∀ (k x : Nat), idx[k]? = some x → (1 ≤ x ∧ x ≤ tf.length) →
        tf.getD (x - 1) false = true →
        (∀ (j y : Nat), j < k → idx[j]? = some y →
          (1 ≤ y ∧ y ≤ tf.length) ∧ tf.getD (y - 1) false = false) →
        ∀ tail : List Nat,
          mexFunction (.logical tf) (.uint32 (idx.take (k + 1) ++ tail)) = .ok (x : Int)) := by
  refine ⟨⟨fun h => searchLoop_error_reached tf tf.length idx _ h,
    fun ⟨k, x, hk, hbad, hbefore⟩ => searchLoop_bad_index tf tf.length idx k x hk hbad hbefore⟩,
    fun hno => ?_, fun k x hk hin hhit hbefore tail => ?_⟩
  · cases h : mexFunction (.logical tf) (.uint32 idx) with
    | ok r => exact ⟨r, rfl⟩
    | error e => exact absurd (searchLoop_error_reached tf tf.length idx e h) hno
  · have hklt : k < idx.length := by
      rcases Nat.lt_or_ge k idx.length with h | h
      · exact h
      · rw [List.getElem?_eq_none h] at hk
        exact absurd hk (by simp)
    have hsame : ∀ j, j ≤ k → (idx.take (k + 1) ++ tail)[j]? = idx[j]? := by
      intro j hj
      rw [List.getElem?_append_left (by rw [List.length_take]; omega),
        List.getElem?_take_of_lt (by omega)]
    refine searchLoop_first_match tf tf.length _ k x ?_ hin hhit (fun j y hj hy => ?_)
    · rw [hsame k (Nat.le_refl k)]; exact hk
    · rw [hsame j (by omega)] at hy
      exact hbefore j y hj hy

end quickfind_mex

/-! ## interpnearest: every access is legal -/

namespace interpnearest

theorem offset_lt_size {N D i k : Nat} (hi : i < N) (hk : k < D) : i + N * k < N * D := by
  have h1 : N * k + N ≤ N * D := by
    calc N * k + N = N * (k + 1) := by ring
      _ ≤ N * D := Nat.mul_le_mul_left N hk
  omega

theorem dsqAccesses_inBounds (Np Nc Nd ip ic : Nat) (sCval sPval sPidx : Nat)
    (hip : ip < Np) (hic : ic < Nc) :
    ∀ n, n ≤ Nd → ∀ a, a ∈ dsqAccesses Np Nc ip ic n →
      a.inBounds (Np * Nd) (Nc * Nd) sCval sPval sPidx Nc := by
  intro n
  induction n with
  | zero => intro _ a ha; simp [dsqAccesses] at ha
  | succ n ih =>
    intro hn a ha
    simp only [dsqAccesses, List.mem_append, List.mem_cons, List.mem_singleton,
      List.not_mem_nil, or_false] at ha
    rcases ha with ha | ha | ha
    · exact ih (by omega) a ha
    · subst ha; exact offset_lt_size hip (by omega)
    · subst ha; exact offset_lt_size hic (by omega)

theorem centerLoopT_run (P C : Nat → Dbl) (Np Nc Nd ip : Nat) (sCval sPval sPidx : Nat)
    (hip : ip < Np) :
    ∀ (rem ic : Nat) (s : Locals × Bool), ic + rem = Nc → (s.1.tf = true → s.2 = true) →
      (centerLoopT P C Np Nc Nd ip rem ic s).1.1 = centerLoop P C Np Nc Nd ip rem ic s.1 ∧
      ((centerLoopT P C Np Nc Nd ip rem ic s).1.1.tf = true →
        (centerLoopT P C Np Nc Nd ip rem ic s).1.2 = true) ∧
      ∀ a, a ∈ (centerLoopT P C Np Nc Nd ip rem ic s).2 →
        a.inBounds (Np * Nd) (Nc * Nd) sCval sPval sPidx Nc := by
  intro rem
  induction rem with
  | zero =>
    intro ic s _ hs
    exact ⟨rfl, hs, fun a ha => by simp [centerLoopT] at ha⟩
  | succ rem ih =>
    intro ic s hic hs
    have htr := dsqAccesses_inBounds Np Nc Nd ip ic sCval sPval sPidx hip (by omega) Nd
      (Nat.le_refl _)
    simp only [centerLoopT, centerLoop]
    by_cases hlt : Dbl.lt (dsqLoop P C Np Nc ip ic Nd) s.1.mindsq = true
    · simp only [hlt, if_true]
      by_cases hz : Dbl.eq (dsqLoop P C Np Nc ip ic Nd) Dbl.zero = true
      · simp only [hz, if_true]
        exact ⟨trivial, fun _ => trivial, htr⟩
      · simp only [hz, Bool.false_eq_true, if_false]
        obtain ⟨h1, h2, h3⟩ := ih (ic + 1)
          ({ mindsq := dsqLoop P C Np Nc ip ic Nd, idx := ic, tf := true }, true)
          (by omega) (fun _ => rfl)
        refine ⟨h1, h2, fun a ha => ?_⟩
        rcases List.mem_append.mp ha with ha | ha
        · exact htr a ha
        · exact h3 a ha
    · simp only [hlt, Bool.false_eq_true, if_false]
      obtain ⟨h1, h2, h3⟩ := ih (ic + 1) s (by omega) hs
      refine ⟨h1, h2, fun a ha => ?_⟩
      rcases List.mem_append.mp ha with ha | ha
      · exact htr a ha
      · exact h3 a ha

theorem copyAccesses_inBounds (Np Nc Nv ip idx : Nat) (sP sC sPidx : Nat)
    (hip : ip < Np) (hidx : idx < Nc) :
    ∀ n, n ≤ Nv → ∀ a, a ∈ copyAccesses Np Nc ip idx true n →
      a.inBounds sP sC (Nc * Nv) (Np * Nv) sPidx Nc := by
  intro n
  induction n with
  | zero => intro _ a ha; simp [copyAccesses] at ha
  | succ n ih =>
    intro hn a ha
    simp only [copyAccesses, List.mem_append, List.mem_cons, List.mem_singleton,
      List.not_mem_nil, or_false] at ha
    rcases ha with ha | ha | ha | ha
    · exact ih (by omega) a ha
    · subst ha; exact ⟨rfl, hidx⟩
    · subst ha; exact offset_lt_size hidx (by omega)
    · subst ha; exact offset_lt_size hip (by omega)

theorem nanAccesses_inBounds (Np Nv ip : Nat) (sP sC sCval sPidx Nc : Nat) (hip : ip < Np) :
    ∀ n, n ≤ Nv → ∀ a, a ∈ nanAccesses Np ip n →
      a.inBounds sP sC sCval (Np * Nv) sPidx Nc := by
  intro n
  induction n with
  | zero => intro _ a ha; simp [nanAccesses] at ha
  | succ n ih =>
    intro hn a ha
    simp only [nanAccesses, List.mem_append, List.mem_singleton] at ha
    rcases ha with ha | ha
    · exact ih (by omega) a ha
    · subst ha; exact offset_lt_size hip (by omega)

theorem pointBodyT_run (flagidx : Bool) (P C Cval : Nat → Dbl) (Np Nc Nd Nv : Nat)
    (csq : Dbl) (ip : Nat) (s : Bufs × Bool) (hip : ip < Np) :
    (pointBodyT flagidx P C Cval Np Nc Nd Nv csq ip s).1.1
        = pointBody flagidx P C Cval Np Nc Nd Nv csq ip s.1 ∧
      ∀ a, a ∈ (pointBodyT flagidx P C Cval Np Nc Nd Nv csq ip s).2 →
        a.inBounds (Np * Nd) (Nc * Nd) (Nc * Nv) (Np * Nv) Np Nc := by
  obtain ⟨h1, h2, h3⟩ := centerLoopT_run P C Np Nc Nd ip (Nc * Nv) (Np * Nv) Np hip Nc 0
    ({ mindsq := csq, idx := s.1.idx, tf := false }, s.2) (by omega)
    (fun h => absurd h (by simp))
  have hsc := centerLoop_scanned P C Np Nc Nd ip csq Nc 0
    { mindsq := csq, idx := s.1.idx, tf := false } (by omega) (scanned_init _ csq s.1.idx)
  simp only at h1 h2 h3
  simp only [pointBodyT, pointBody, h1]
  cases htf : (centerLoop P C Np Nc Nd ip Nc 0 { mindsq := csq, idx := s.1.idx, tf := false }).tf
  · simp only [Bool.false_eq_true, if_false, true_and]
    intro a ha
    rcases List.mem_append.mp ha with ha | ha
    · rcases List.mem_append.mp ha with ha | ha
      · exact h3 a ha
      · cases flagidx
        · simp at ha
        · simp only [if_true, List.mem_singleton] at ha
          subst ha; exact hip
    · exact nanAccesses_inBounds Np Nv ip _ _ _ _ _ hip Nv (Nat.le_refl _) a ha
  · simp only [if_true, true_and]
    have hasg := h2 (by rw [h1]; exact htf)
    have hidx := (hsc.2.2 htf).1
    intro a ha
    rcases List.mem_append.mp ha with ha | ha
    · rcases List.mem_append.mp ha with ha | ha
      · exact h3 a ha
      · cases flagidx
        · simp at ha
        · simp only [if_true, List.mem_cons, List.mem_singleton, List.not_mem_nil,
            or_false] at ha
          rcases ha with ha | ha
          · subst ha; exact ⟨hasg, hidx⟩
          · subst ha; exact hip
    · rw [hasg] at ha
      exact copyAccesses_inBounds Np Nc Nv ip _ _ _ _ hip hidx Nv (Nat.le_refl _) a ha

theorem pointLoopT_run (flagidx : Bool) (P C Cval : Nat → Dbl) (Np Nc Nd Nv : Nat)
    (csq : Dbl) (idx0 : Nat) :
    ∀ n, n ≤ Np →
      (pointLoopT flagidx P C Cval Np Nc Nd Nv csq idx0 n).1.1
          = pointLoop flagidx P C Cval Np Nc Nd Nv csq idx0 n ∧
        ∀ a, a ∈ (pointLoopT flagidx P C Cval Np Nc Nd Nv csq idx0 n).2 →
          a.inBounds (Np * Nd) (Nc * Nd) (Nc * Nv) (Np * Nv) Np Nc := by
  intro n
  induction n with
  | zero => intro _; exact ⟨rfl, fun a ha => by simp [pointLoopT] at ha⟩
  | succ n ih =>
    intro hn
    obtain ⟨h1, h2⟩ := ih (by omega)
    obtain ⟨h3, h4⟩ := pointBodyT_run flagidx P C Cval Np Nc Nd Nv csq n
      (pointLoopT flagidx P C Cval Np Nc Nd Nv csq idx0 n).1 (by omega)
    simp only [pointLoopT, pointLoop]
    refine ⟨by rw [h3, h1], fun a ha => ?_⟩
    rcases List.mem_append.mp ha with ha | ha
    · exact h2 a ha
    · exact h4 a ha

/-- C20: in a successful call (so `C` has as many columns as `P`, `Cval` as many rows as
`C`, and `c > 0`) the run that records its accesses is the run of the call, and every
access is legal: each read of `P`, `C`, `Cval` and each write of `Pval`, `Pidx` lies
inside the buffer, whose size is the element count of the array, and each read of the
local `idx` happens after `idx` was assigned and finds a value below `Nc`. -/
theorem accesses_are_in_bounds (idx0 nlhs : Nat) (p0 p1 p2 p3 : MxArray) (out : Output)
    (hok : mexFunction idx0 nlhs [p0, p1, p2, p3] = .ok out) :
    out.Pval = (pointLoopT (decide (nlhs = 2)) p0.pr p1.pr p2.pr p0.m p1.m p0.n p2.n
        (csq p3) idx0 p0.m).1.1.Pval ∧
      ∀ a, a ∈ accesses idx0 nlhs p0 p1 p2 p3 →
        a.inBounds p0.numel p1.numel p2.numel (p0.m * p2.n) p0.m p1.m := by
  obtain ⟨_, hn, hm, _, hout⟩ := mexFunction_ok hok
  obtain ⟨h1, h2⟩ := pointLoopT_run (decide (nlhs = 2)) p0.pr p1.pr p2.pr p0.m p1.m p0.n
    p2.n (csq p3) idx0 p0.m (Nat.le_refl _)
  refine ⟨by rw [hout, h1]; rfl, fun a ha => ?_⟩
  have h := h2 a ha
  simp only [MxArray.numel, hn, hm]
  exact h

/-- C20, on the example of the specification: one query point, two centers, two columns,
one value column. -/
theorem accesses_are_in_bounds_witness :
    mexFunction 0 2 [exOrigin, exCenters, exValues, scalar Dbl.one]
        = .ok (result 0 2 exOrigin exCenters exValues (scalar Dbl.one)) ∧
      accesses 0 2 exOrigin exCenters exValues (scalar Dbl.one)
        = [.readP 0, .readC 0, .readP 1, .readC 2, .readIdx true 0, .writePidx 0,
            .readIdx true 0, .readCval 0, .writePval 0] ∧
      ∀ a, a ∈ accesses 0 2 exOrigin exCenters exValues (scalar Dbl.one) →
        a.inBounds exOrigin.numel exCenters.numel exValues.numel
          (exOrigin.m * exValues.n) exOrigin.m exCenters.m :=
  ⟨by rfl, by rfl,
    (accesses_are_in_bounds 0 2 exOrigin exCenters exValues (scalar Dbl.one) _ (by rfl)).2⟩

end interpnearest

/-! ## Rounding is exact on representable results -/

namespace Dbl

end Dbl

/-! ## Integer-valued doubles -/

namespace Dbl

theorem IsExact.not_nan {x : Dbl} {E : Int} (hx : IsExact x E) : isNaN x = false := by
  obtain ⟨m, rfl, _⟩ := hx
  rfl

end Dbl

/-! ## interpnearest: computed against exact squared distance -/

namespace interpnearest

end interpnearest

/-! ## interpnearest: nearest center, on computed values and on exact distances -/

namespace interpnearest

end interpnearest
